/-
Verification of the hybrid sparse-retrieval core of a Qdrant-backed search
backend: sparse-vector construction (Korean morphological path and
multilingual routing), batch orchestration, and Reciprocal Rank Fusion.

Shallow embedding notes.
* Python dicts are embedded as insertion-ordered association lists.
* Float arithmetic is embedded as exact arithmetic: scores of the RRF engine
  are rationals, embedding weights are real numbers.
* The Kiwi morphological analyzer, the process-level string hash and the
  FastEmbed BM25 model are external to the repository; they enter the
  embedding as function parameters (`kiwi`, `h`, `fe`).
* Python `sorted(..., reverse=True)` is a stable descending sort; it is
  embedded as `List.insertionSort` with the relation "second score ≤ first",
  which performs exactly the same stable insertion.
-/
import Mathlib

open scoped Classical

set_option maxHeartbeats 1000000

/-! ## Association lists: the embedding of Python `dict` -/

/-- Lookup in an insertion-ordered association list (Python `d[k]` / `k in d`). -/
def alistGet {κ ν : Type} [DecidableEq κ] (k : κ) : List (κ × ν) → Option ν
  | [] => none
  | p :: rest => if p.1 = k then some p.2 else alistGet k rest

/-- Assignment `d[k] = v` on an insertion-ordered association list: update in
place if the key is present, append at the end otherwise. -/
def alistSet {κ ν : Type} [DecidableEq κ] (k : κ) (v : ν) : List (κ × ν) → List (κ × ν)
  | [] => [(k, v)]
  | p :: rest => if p.1 = k then (p.1, v) :: rest else p :: alistSet k v rest

/-- A Qdrant sparse vector: mapping from integer index to weight
(`Dict[int, float]`), insertion ordered. -/
abbrev SparseVec := List (ℕ × ℝ)

/-- Euclidean norm of a list of weights, `np.linalg.norm(values)`. -/
noncomputable def l2normValues (vs : List ℝ) : ℝ :=
  Real.sqrt ((vs.map fun v => v ^ 2).sum)

/-! ## Python string helpers -/

/-- Python's whitespace test for `str.split()` / `str.strip()`. -/
def pythonIsSpace (c : Char) : Bool :=
  c.toNat = 32 || (9 ≤ c.toNat && c.toNat ≤ 13) || (28 ≤ c.toNat && c.toNat ≤ 31) ||
  c.toNat = 133 || c.toNat = 160 || c.toNat = 0x1680 ||
  (0x2000 ≤ c.toNat && c.toNat ≤ 0x200A) || c.toNat = 0x2028 || c.toNat = 0x2029 ||
  c.toNat = 0x202F || c.toNat = 0x205F || c.toNat = 0x3000

/-- `not text.strip()`: the string is empty or consists of whitespace only. -/
def pythonStripIsEmpty (s : String) : Bool :=
  s.data.all pythonIsSpace

/-- Helper for `str.split()`: walk the characters, `cur` holds the current
word reversed. -/
def pythonSplitAux : List Char → List Char → List String
  | [], cur => if cur.isEmpty then [] else [String.mk cur.reverse]
  | c :: cs, cur =>
    if pythonIsSpace c then
      if cur.isEmpty then pythonSplitAux cs []
      else String.mk cur.reverse :: pythonSplitAux cs []
    else pythonSplitAux cs (c :: cur)

/-- Python `text.split()`: split on runs of whitespace, dropping empty parts. -/
def pythonSplit (s : String) : List String :=
  pythonSplitAux s.data []

/-- Python `s.startswith(p)`, evaluated on the character lists. -/
def strStartsWith (s p : String) : Bool :=
  p.data.isPrefixOf s.data

/-! ## KoreanSparseEmbedding (`app/korean_sparse_embedding.py`) -/

/-- A token produced by the Kiwi analyzer: surface form and POS tag. -/
structure KiwiToken where
  form : String
  tag : String
deriving DecidableEq

namespace KoreanSparseEmbedding

/-- The POS allow-list test
`tag.startswith(('NN', 'VV', 'VA', 'MM', 'MAG', 'XR'))`. -/
def keepTag (tag : String) : Bool :=
  strStartsWith tag "NN" || strStartsWith tag "VV" || strStartsWith tag "VA" ||
  strStartsWith tag "MM" || strStartsWith tag "MAG" || strStartsWith tag "XR"

/-- The token filter loop of `_tokenize`: keep allow-listed morphemes, keep
foreign words (`SL*`) lower-cased, drop everything else. -/
def filterTokens : List KiwiToken → List String
  | [] => []
  | tok :: rest =>
    if keepTag tok.tag then tok.form :: filterTokens rest
    else if strStartsWith tok.tag "SL" then tok.form.toLower :: filterTokens rest
    else filterTokens rest

/-- `KoreanSparseEmbedding._tokenize`: empty/whitespace-only text yields `[]`;
a failing analyzer call falls back to `text.split()`; otherwise the Kiwi
tokens are filtered by POS tag.  The analyzer is the external parameter
`kiwi`; a raised exception is its `Except.error` result. -/
def tokenize (kiwi : String → Except String (List KiwiToken)) (text : String) :
    List String :=
  if text.isEmpty || pythonStripIsEmpty text then []
  else
    match kiwi text with
    | Except.ok result => if result.isEmpty then [] else filterTokens result
    | Except.error _ => pythonSplit text

/-- `abs(hash(term)) % (2**31)`: the process string hash is the external
parameter `h`. -/
def hashIndex (h : String → ℤ) (term : String) : ℕ :=
  (h term).natAbs % 2 ^ 31

/-- The term-frequency loop of `transform`:
`term_freq[token] = term_freq.get(token, 0) + 1`. -/
def termFreqs (tokens : List String) : List (String × ℕ) :=
  tokens.foldl (fun d t => alistSet t ((alistGet t d).getD 0 + 1) d) []

/-- The un-normalized sparse dictionary built by `transform` before the final
L2 normalization: for each distinct term of frequency `f`,
`sparse_dict[abs(hash(term)) % 2**31] = (1.0 + log f) / sqrt(doc_length)`
(the code writes `1.0 + np.log(freq) if freq > 0 else 0.0`). -/
noncomputable def preVector (h : String → ℤ)
    (kiwi : String → Except String (List KiwiToken)) (text : String) : SparseVec :=
  let tokens := tokenize kiwi text
  if tokens.isEmpty then []
  else
    (termFreqs tokens).foldl
      (fun d p =>
        alistSet (hashIndex h p.1)
          ((if 0 < p.2 then 1 + Real.log (p.2 : ℝ) else 0) /
            Real.sqrt (tokens.length : ℝ)) d)
      []

/-- `KoreanSparseEmbedding.transform`: build the weighted dictionary, then
L2-normalize it when its norm is positive. -/
noncomputable def transform (h : String → ℤ)
    (kiwi : String → Except String (List KiwiToken)) (text : String) : SparseVec :=
  let sparse := preVector h kiwi text
  if sparse.isEmpty then sparse
  else
    let norm := l2normValues (sparse.map Prod.snd)
    if 0 < norm then sparse.map fun p => (p.1, p.2 / norm)
    else sparse

/-- `KoreanSparseEmbedding.batch_transform`: transform each text in order. -/
noncomputable def batchTransform (h : String → ℤ)
    (kiwi : String → Except String (List KiwiToken)) (texts : List String) :
    List SparseVec :=
  texts.map (transform h kiwi)

end KoreanSparseEmbedding

/-! ## MultilingualSparseEmbedding (`app/multilingual_sparse_embedding.py`) -/

/-- The dual-embedder holder: either embedder may have failed to initialize
(`None`).  The Korean embedder is abstracted as a text-to-sparse-vector
function, the FastEmbed BM25 embedder as a text-to-(indices, values) function
whose output the code converts to a dict. -/
structure MultilingualSparseEmbedding where
  koreanEmbedder : Option (String → SparseVec)
  fastembedEmbedder : Option (String → List (ℕ × ℝ))

namespace MultilingualSparseEmbedding

/-- `_is_korean_text`: count characters `c` with
`'가' <= c <= '힯'`, divide by `len(text.replace(' ', ''))`, compare
the ratio with `0.3`. -/
def isKoreanText (text : String) : Bool :=
  if text.isEmpty then false
  else
    let koreanChars :=
      (text.data.filter fun c => 0xAC00 ≤ c.toNat && c.toNat ≤ 0xD7AF).length
    let totalChars := (text.data.filter fun c => c != ' ').length
    if totalChars = 0 then false
    else decide ((3 : ℚ) / 10 ≤ (koreanChars : ℚ) / (totalChars : ℚ))

/-- The conversion loop `sparse_dict[int(idx)] = float(val)` over the
`(indices, values)` pairs of a FastEmbed sparse embedding. -/
def buildDict (pairs : List (ℕ × ℝ)) : SparseVec :=
  pairs.foldl (fun d p => alistSet p.1 p.2 d) []

/-- `MultilingualSparseEmbedding.transform`: empty/whitespace text yields the
empty dict; Korean-detected text goes to the Korean embedder, whose non-empty
result is returned; otherwise the call falls through to FastEmbed when it is
available; with no embedder available the empty dict is returned. -/
def transform (self : MultilingualSparseEmbedding) (text : String) : SparseVec :=
  if text.isEmpty || pythonStripIsEmpty text then []
  else
    let koreanOut : Option SparseVec :=
      if isKoreanText text then
        match self.koreanEmbedder with
        | some ke =>
          let d := ke text
          if d.isEmpty then none else some d
        | none => none
      else none
    match koreanOut with
    | some d => d
    | none =>
      match self.fastembedEmbedder with
      | some fe => buildDict (fe text)
      | none => []

/-- The partition loop of `batch_transform`, Korean side: pairs
`(original index, text)` in original order. -/
def koreanPart (texts : List String) : List (ℕ × String) :=
  texts.enum.filter fun p => isKoreanText p.2

/-- The partition loop of `batch_transform`, non-Korean side. -/
def nonKoreanPart (texts : List String) : List (ℕ × String) :=
  texts.enum.filter fun p => !isKoreanText p.2

/-- The merge loop `result[idx] = group_results[i]`, guarded by
`i < len(group_results)` (list `zip` truncates exactly as the guard does). -/
def writeBack (pairs : List (ℕ × SparseVec)) (init : List SparseVec) :
    List SparseVec :=
  pairs.foldl (fun acc p => acc.set p.1 p.2) init

/-- `MultilingualSparseEmbedding.batch_transform`: partition by detected
language, run each group's embedder over its texts in order (skipping a group
that is empty or whose embedder is missing), then scatter the group results
back to the original indices over `[{}] * len(texts)`. -/
def batchTransform (self : MultilingualSparseEmbedding) (texts : List String) :
    List SparseVec :=
  if texts.isEmpty then []
  else
    let kPart := koreanPart texts
    let nPart := nonKoreanPart texts
    let koreanResults : List SparseVec :=
      match self.koreanEmbedder with
      | some ke =>
        if (kPart.map Prod.snd).isEmpty then []
        else (kPart.map Prod.snd).map ke
      | none => []
    let nonKoreanResults : List SparseVec :=
      match self.fastembedEmbedder with
      | some fe =>
        if (nPart.map Prod.snd).isEmpty then []
        else (nPart.map Prod.snd).map fun t => buildDict (fe t)
      | none => []
    writeBack ((nPart.map Prod.fst).zip nonKoreanResults)
      (writeBack ((kPart.map Prod.fst).zip koreanResults)
        (List.replicate texts.length []))

end MultilingualSparseEmbedding

/-! ## RRFFusion (`app/services/rrf_fusion.py`) -/

/-- The two dictionaries of `RRFFusion.fuse`: running scores and the
first-encountered result object per identifier. -/
structure RRFState (α β : Type) where
  scores : List (β × ℚ)
  resultMap : List (β × α)

namespace RRFFusion

variable {α β : Type} [DecidableEq β]

/-- One iteration of the inner loop of `fuse`: compute
`1.0 / (self.k + rank)` (a zero denominator raises `ZeroDivisionError`,
embedded as `none`), initialize the two dicts on first encounter, and
accumulate the contribution. -/
def step (k : ℤ) (getId : α → β) (st : RRFState α β) (rank : ℕ) (res : α) :
    Option (RRFState α β) :=
  let rid := getId res
  if k + (rank : ℤ) = 0 then none
  else
    let c : ℚ := 1 / ((k : ℚ) + (rank : ℚ))
    let st1 : RRFState α β :=
      if (alistGet rid st.scores).isSome then st
      else ⟨alistSet rid 0 st.scores, alistSet rid res st.resultMap⟩
    some ⟨alistSet rid ((alistGet rid st1.scores).getD 0 + c) st1.scores,
      st1.resultMap⟩

/-- `for rank, result in enumerate(result_list, start=1)`. -/
def processList (k : ℤ) (getId : α → β) :
    List α → ℕ → RRFState α β → Option (RRFState α β)
  | [], _, st => some st
  | res :: rest, rank, st =>
    match step k getId st rank res with
    | none => none
    | some st' => processList k getId rest (rank + 1) st'

/-- `for result_list in result_lists`. -/
def processAll (k : ℤ) (getId : α → β) :
    List (List α) → RRFState α β → Option (RRFState α β)
  | [], st => some st
  | l :: ls, st =>
    match processList k getId l 1 st with
    | none => none
    | some st' => processAll k getId ls st'

/-- The stable descending sort
`sorted(rrf_scores.items(), key=lambda x: x[1], reverse=True)`. -/
def sortScores (scores : List (β × ℚ)) : List (β × ℚ) :=
  scores.insertionSort fun p q => q.2 ≤ p.2

/-- `RRFFusion.fuse`: accumulate reciprocal-rank contributions over all lists,
sort the score dict descending (stably), and pair each identifier's
first-encountered result object with its score. -/
def fuse (k : ℤ) (getId : α → β) (lists : List (List α)) :
    Option (List (α × ℚ)) :=
  match processAll k getId lists ⟨[], []⟩ with
  | none => none
  | some st =>
    (sortScores st.scores).mapM fun p =>
      (alistGet p.1 st.resultMap).map fun r => (r, p.2)

end RRFFusion

/-! ## Specification-side definitions (from the claims' wording) -/

/-- The order in which identifiers are first encountered during list
traversal. -/
def firstEncounterOrder {β : Type} [DecidableEq β] (ids : List β) : List β :=
  ids.foldl (fun acc b => if b ∈ acc then acc else acc ++ [b]) []

/-- The reciprocal-rank contribution of one list to one identifier when the
first element of `l` has rank `rank`: proof-side accumulator. -/
def rankContrib {α β : Type} [DecidableEq β] (k : ℤ) (getId : α → β) (id : β) :
    List α → ℕ → ℚ
  | [], _ => 0
  | res :: rest, rank =>
    (if getId res = id then 1 / ((k : ℚ) + (rank : ℚ)) else 0) +
      rankContrib k getId id rest (rank + 1)

/-- The fusion score the claim specifies: the sum over all lists containing
the identifier of `1 / (k + r)`, `r` the 1-based rank in that list. -/
def specScore {α β : Type} [DecidableEq β] (k : ℤ) (getId : α → β)
    (lists : List (List α)) (id : β) : ℚ :=
  (lists.map fun l =>
    if id ∈ l.map getId then
      1 / ((k : ℚ) + (((l.map getId).indexOf id : ℕ) + 1 : ℚ))
    else 0).sum

/-- The first result object with a given identifier during list traversal. -/
def firstResult {α β : Type} [DecidableEq β] (getId : α → β) (id : β)
    (rs : List α) : Option α :=
  rs.find? fun r => decide (getId r = id)

/-- Modelled from the spec: the language-router predicate exactly as claim C5
words it — characters of the Korean syllable block U+AC00–U+D7A3 divided by
the count of non-whitespace characters, at least 0.30, false for empty or
all-whitespace text. -/
def specKoreanRouter (text : String) : Bool :=
  let koreanChars :=
    (text.data.filter fun c => 0xAC00 ≤ c.toNat && c.toNat ≤ 0xD7A3).length
  let totalChars := (text.data.filter fun c => !pythonIsSpace c).length
  if totalChars = 0 then false
  else decide ((3 : ℚ) / 10 ≤ (koreanChars : ℚ) / (totalChars : ℚ))

/-! ## Concrete instances used by witnesses and counterexamples -/

/-- A concrete process hash for witnesses. -/
def hash7 : String → ℤ := fun _ => 7

/-- A Kiwi stub that always raises. -/
def kiwiRaise : String → Except String (List KiwiToken) := fun _ => .error "crash"

/-- A Kiwi stub that returns a single particle token (`JKO`), which the POS
filter discards. -/
def kiwiParticle : String → Except String (List KiwiToken) :=
  fun _ => .ok [⟨"을", "JKO"⟩]

/-- A Kiwi stub that returns no tokens. -/
def kiwiNoTokens : String → Except String (List KiwiToken) := fun _ => .ok []

/-- A FastEmbed stub returning one index of weight 1. -/
def fastembedUnit : String → List (ℕ × ℝ) := fun _ => [(0, 1)]

/-- A FastEmbed stub returning one index of weight 5: a legal fallback
behaviour (non-empty mapping of positive weights). -/
def fastembedFive : String → List (ℕ × ℝ) := fun _ => [(0, 5)]

/-! ## Lemmas: association lists -/

theorem alistGet_set_self {κ ν : Type} [DecidableEq κ] (k : κ) (v : ν)
    (d : List (κ × ν)) : alistGet k (alistSet k v d) = some v := by
  induction d with
  | nil => simp [alistGet, alistSet]
  | cons p rest ih =>
    by_cases h : p.1 = k
    · simp [alistGet, alistSet, h]
    · simp [alistGet, alistSet, h, ih]

theorem alistGet_set_ne {κ ν : Type} [DecidableEq κ] {k k' : κ} (v : ν)
    (d : List (κ × ν)) (hne : k' ≠ k) :
    alistGet k (alistSet k' v d) = alistGet k d := by
  induction d with
  | nil => simp [alistGet, alistSet, hne]
  | cons p rest ih =>
    by_cases h : p.1 = k'
    · have hpk : p.1 ≠ k := by rw [h]; exact hne
      simp [alistGet, alistSet, h, hpk, hne]
    · by_cases h2 : p.1 = k <;>
        simp [alistGet, alistSet, h, h2, ih, Ne.symm hne]

theorem alistSet_keys {κ ν : Type} [DecidableEq κ] (k : κ) (v : ν)
    (d : List (κ × ν)) :
    (alistSet k v d).map Prod.fst =
      if (alistGet k d).isSome then d.map Prod.fst
      else d.map Prod.fst ++ [k] := by
  induction d with
  | nil => simp [alistGet, alistSet]
  | cons p rest ih =>
    by_cases h : p.1 = k
    · simp [alistGet, alistSet, h]
    · by_cases h2 : (alistGet k rest).isSome <;>
        simp [alistGet, alistSet, h, h2, ih]

theorem alistGet_eq_none_iff {κ ν : Type} [DecidableEq κ] (k : κ)
    (d : List (κ × ν)) : alistGet k d = none ↔ k ∉ d.map Prod.fst := by
  induction d with
  | nil => simp [alistGet]
  | cons p rest ih =>
    by_cases h : p.1 = k
    · simp [alistGet, h]
    · simp [alistGet, h, ih, Ne.symm h]

theorem alistGet_isSome_iff {κ ν : Type} [DecidableEq κ] (k : κ)
    (d : List (κ × ν)) : (alistGet k d).isSome ↔ k ∈ d.map Prod.fst := by
  rw [Option.isSome_iff_ne_none, ne_eq, alistGet_eq_none_iff, not_not]

theorem alistGet_mem {κ ν : Type} [DecidableEq κ] {k : κ} {v : ν}
    {d : List (κ × ν)} (h : alistGet k d = some v) : (k, v) ∈ d := by
  induction d with
  | nil => simp [alistGet] at h
  | cons p rest ih =>
    obtain ⟨p1, p2⟩ := p
    by_cases hp : p1 = k
    · simp [alistGet, hp] at h
      simp [hp, h]
    · simp [alistGet, hp] at h
      exact List.mem_cons_of_mem _ (ih h)

theorem alistGet_of_mem_nodup {κ ν : Type} [DecidableEq κ] {k : κ} {v : ν}
    {d : List (κ × ν)} (hnd : (d.map Prod.fst).Nodup) (hm : (k, v) ∈ d) :
    alistGet k d = some v := by
  induction d with
  | nil => simp at hm
  | cons p rest ih =>
    rw [List.map_cons, List.nodup_cons] at hnd
    rcases List.mem_cons.1 hm with h | h
    · rw [← h]
      simp [alistGet]
    · have hk : p.1 ≠ k := by
        intro he
        apply hnd.1
        rw [he]
        exact List.mem_map_of_mem Prod.fst h
      simp [alistGet, hk]
      exact ih hnd.2 h

theorem alistSet_nodup_keys {κ ν : Type} [DecidableEq κ] (k : κ) (v : ν)
    {d : List (κ × ν)} (hnd : (d.map Prod.fst).Nodup) :
    ((alistSet k v d).map Prod.fst).Nodup := by
  rw [alistSet_keys]
  by_cases h : (alistGet k d).isSome
  · simpa [h]
  · have hk : k ∉ d.map Prod.fst := by
      rw [← alistGet_eq_none_iff]
      cases he : alistGet k d
      · rfl
      · simp [he] at h
    rw [if_neg h]
    apply List.Nodup.append hnd (List.nodup_singleton k)
    intro a ha hb
    rw [List.mem_singleton] at hb
    subst hb
    exact hk ha

theorem alistSet_of_get_none {κ ν : Type} [DecidableEq κ] {k : κ} (v : ν)
    {d : List (κ × ν)} (h : alistGet k d = none) :
    alistSet k v d = d ++ [(k, v)] := by
  induction d with
  | nil => simp [alistSet]
  | cons p rest ih =>
    by_cases hp : p.1 = k
    · simp [alistGet, hp] at h
    · simp [alistGet, hp] at h
      simp [alistSet, hp, ih h]

theorem mem_alistSet {κ ν : Type} [DecidableEq κ] {k : κ} {v : ν}
    {d : List (κ × ν)} {q : κ × ν} (h : q ∈ alistSet k v d) :
    q.2 = v ∨ q ∈ d := by
  induction d with
  | nil => simp [alistSet] at h; simp [h]
  | cons p rest ih =>
    by_cases hp : p.1 = k
    · simp [alistSet, hp] at h
      rcases h with h | h
      · simp [h]
      · simp [h]
    · simp [alistSet, hp] at h
      rcases h with h | h
      · simp [h]
      · rcases ih h with h2 | h2
        · simp [h2]
        · simp [h2]

theorem alistSet_ne_nil {κ ν : Type} [DecidableEq κ] (k : κ) (v : ν)
    (d : List (κ × ν)) : alistSet k v d ≠ [] := by
  cases d with
  | nil => simp [alistSet]
  | cons p rest =>
    by_cases hp : p.1 = k <;> simp [alistSet, hp]

/-! ## Lemmas: Python string helpers -/

theorem pythonSplitAux_all_space {cs : List Char}
    (h : cs.all pythonIsSpace = true) : pythonSplitAux cs [] = [] := by
  induction cs with
  | nil => simp [pythonSplitAux]
  | cons c cs ih =>
    rw [List.all_cons, Bool.and_eq_true] at h
    simp [pythonSplitAux, h.1, ih h.2]

theorem pythonSplit_of_strip_empty {text : String}
    (h : pythonStripIsEmpty text = true) : pythonSplit text = [] := by
  unfold pythonSplit
  exact pythonSplitAux_all_space h

/-- C7: tokenization is total — in the embedding `_tokenize` returns a plain
token list for every input and every analyzer behaviour, and whenever the
morphological analyzer raises on the input, the result is exactly the naive
whitespace split `text.split()` of the text. -/
theorem tokenize_total_fallback (kiwi : String → Except String (List KiwiToken))
    (text : String) (e : String) (herr : kiwi text = Except.error e) :
    KoreanSparseEmbedding.tokenize kiwi text = pythonSplit text := by
  unfold KoreanSparseEmbedding.tokenize
  by_cases hg : (text.isEmpty || pythonStripIsEmpty text) = true
  · rw [if_pos hg]
    rcases Bool.or_eq_true_iff.1 hg with he | hs
    · rw [String.isEmpty_iff] at he
      subst he
      rfl
    · exact (pythonSplit_of_strip_empty hs).symm
  · rw [if_neg hg, herr]

/-- Witness for C7 at a concrete raising analyzer and concrete text. -/
theorem tokenize_total_fallback_witness :
    kiwiRaise "a b" = Except.error "crash" ∧
      KoreanSparseEmbedding.tokenize kiwiRaise "a b" = pythonSplit "a b" :=
  ⟨rfl, tokenize_total_fallback kiwiRaise "a b" "crash" rfl⟩

/-! ## C5: the language router -/

/-- C5 (counterexample): the claim describes the router as "characters in the
Korean syllable block U+AC00–U+D7A3 divided by the count of non-whitespace
characters".  The code instead counts up to U+D7AF and removes only ASCII
spaces from the denominator.  At "힤" the code returns true while the
claimed predicate is false; at "한" followed by three tabs the code returns
false while the claimed predicate is true. -/
theorem is_korean_text_counterexample :
    MultilingualSparseEmbedding.isKoreanText "힤" = true ∧
      specKoreanRouter "힤" = false ∧
      MultilingualSparseEmbedding.isKoreanText "한\t\t\t" = false ∧
      specKoreanRouter "한\t\t\t" = true := by
  have hd1 : "힤".data = [Char.ofNat 0xD7A4] := rfl
  have he1 : "힤".isEmpty = false := by decide
  have hd2 : "한\t\t\t".data = [Char.ofNat 0xD55C, '\t', '\t', '\t'] := rfl
  have he2 : "한\t\t\t".isEmpty = false := by decide
  refine ⟨?_, ?_, ?_, ?_⟩
  · simp [MultilingualSparseEmbedding.isKoreanText, hd1, he1]
    norm_num
  · simp [specKoreanRouter, hd1, pythonIsSpace]
  · simp [MultilingualSparseEmbedding.isKoreanText, hd2, he2]
    norm_num
  · simp [specKoreanRouter, hd2, pythonIsSpace]
    norm_num

/-- C5 (amended): `_is_korean_text` returns true iff the count of characters
in U+AC00–U+D7AF divided by the count of non-space (U+0020) characters is at
least 0.30; for an empty string, or when no non-space character exists, it
returns false. -/
theorem is_korean_text_spec (text : String) :
    MultilingualSparseEmbedding.isKoreanText text = true ↔
      ((text.data.filter fun c => c != ' ').length ≠ 0 ∧
        (3 : ℚ) / 10 ≤
          ((text.data.filter fun c =>
              0xAC00 ≤ c.toNat && c.toNat ≤ 0xD7AF).length : ℚ) /
            ((text.data.filter fun c => c != ' ').length : ℚ)) := by
  unfold MultilingualSparseEmbedding.isKoreanText
  by_cases he : text.isEmpty = true
  · rw [String.isEmpty_iff] at he
    subst he
    simp
  · simp only [he, Bool.false_eq_true, if_false]
    by_cases ht : (text.data.filter fun c => c != ' ').length = 0
    · simp [ht]
    · simp [ht, decide_eq_true_iff]

/-! ## C8: empty and whitespace-only input -/

theorem transform_of_tokenize_nil {h : String → ℤ}
    {kiwi : String → Except String (List KiwiToken)} {text : String}
    (ht : KoreanSparseEmbedding.tokenize kiwi text = []) :
    KoreanSparseEmbedding.transform h kiwi text = [] := by
  unfold KoreanSparseEmbedding.transform KoreanSparseEmbedding.preVector
  simp [ht]

/-- C8: the construction routines return the empty mapping on empty and
whitespace-only input, and more generally whenever the retained-token
sequence is empty (`doc_length == 0`). -/
theorem transform_empty_input (h : String → ℤ)
    (kiwi : String → Except String (List KiwiToken))
    (M : MultilingualSparseEmbedding) (text : String) :
    KoreanSparseEmbedding.transform h kiwi "" = [] ∧
    KoreanSparseEmbedding.transform h kiwi "   " = [] ∧
    MultilingualSparseEmbedding.transform M "" = [] ∧
    MultilingualSparseEmbedding.transform M "   " = [] ∧
    (KoreanSparseEmbedding.tokenize kiwi text = [] →
      KoreanSparseEmbedding.transform h kiwi text = []) := by
  have he : "".isEmpty = true := rfl
  have hs : pythonStripIsEmpty "   " = true := by decide
  refine ⟨?_, ?_, ?_, ?_, fun ht => transform_of_tokenize_nil ht⟩
  · exact transform_of_tokenize_nil
      (by simp [KoreanSparseEmbedding.tokenize, he])
  · exact transform_of_tokenize_nil
      (by simp [KoreanSparseEmbedding.tokenize, hs])
  · simp [MultilingualSparseEmbedding.transform, he]
  · simp [MultilingualSparseEmbedding.transform, hs]

/-- Witness for C8 at a concrete analyzer returning no tokens. -/
theorem transform_empty_input_witness :
    KoreanSparseEmbedding.tokenize kiwiNoTokens "x" = [] ∧
      KoreanSparseEmbedding.transform hash7 kiwiNoTokens "x" = [] :=
  ⟨by decide,
    (transform_empty_input hash7 kiwiNoTokens ⟨none, none⟩ "x").2.2.2.2 (by decide)⟩

/-! ## Lemmas: term frequency dictionary -/

theorem alistGet_append {κ ν : Type} [DecidableEq κ] (k : κ)
    (l₁ l₂ : List (κ × ν)) :
    alistGet k (l₁ ++ l₂) =
      match alistGet k l₁ with
      | some v => some v
      | none => alistGet k l₂ := by
  induction l₁ with
  | nil => simp [alistGet]
  | cons p rest ih =>
    by_cases hp : p.1 = k <;> simp [alistGet, hp, ih]

theorem termFreqs_get_aux (s : String) (tokens : List String) :
    ∀ d : List (String × ℕ),
      alistGet s (tokens.foldl
          (fun d t => alistSet t ((alistGet t d).getD 0 + 1) d) d) =
        if s ∈ tokens ∨ (alistGet s d).isSome then
          some ((alistGet s d).getD 0 + tokens.count s)
        else none := by
  induction tokens with
  | nil =>
    intro d
    cases hd : alistGet s d <;> simp [hd]
  | cons t ts ih =>
    intro d
    rw [List.foldl_cons, ih]
    by_cases hst : t = s
    · subst hst
      rw [alistGet_set_self]
      have hcount : (t :: ts).count t = ts.count t + 1 := by
        simp [List.count_cons]
      simp [hcount]
      omega
    · rw [alistGet_set_ne _ _ hst]
      have hcount : (t :: ts).count s = ts.count s := by
        simp [List.count_cons, hst]
      have hmem : s ∈ t :: ts ↔ s ∈ ts := by
        simp [List.mem_cons]
        intro he
        exact absurd he.symm hst
      rw [hcount]
      by_cases hc : s ∈ ts ∨ (alistGet s d).isSome <;> simp [hc, hmem]

theorem termFreqs_get (s : String) (tokens : List String) :
    alistGet s (KoreanSparseEmbedding.termFreqs tokens) =
      if s ∈ tokens then some (tokens.count s) else none := by
  unfold KoreanSparseEmbedding.termFreqs
  rw [termFreqs_get_aux]
  simp [alistGet]

theorem termFreqs_keys_nodup (tokens : List String) :
    ((KoreanSparseEmbedding.termFreqs tokens).map Prod.fst).Nodup := by
  unfold KoreanSparseEmbedding.termFreqs
  have : ∀ (ts : List String) (d : List (String × ℕ)),
      (d.map Prod.fst).Nodup →
      ((ts.foldl (fun d t => alistSet t ((alistGet t d).getD 0 + 1) d) d).map
          Prod.fst).Nodup := by
    intro ts
    induction ts with
    | nil => intro d hd; simpa using hd
    | cons t ts ih =>
      intro d hd
      exact ih _ (alistSet_nodup_keys _ _ hd)
  exact this tokens [] (by simp)

theorem termFreqs_mem_freq {s : String} {f : ℕ} {tokens : List String}
    (hm : (s, f) ∈ KoreanSparseEmbedding.termFreqs tokens) :
    s ∈ tokens ∧ f = tokens.count s := by
  have hget := alistGet_of_mem_nodup (termFreqs_keys_nodup tokens) hm
  rw [termFreqs_get] at hget
  by_cases hs : s ∈ tokens
  · simp [hs] at hget
    exact ⟨hs, hget.symm⟩
  · simp [hs] at hget

theorem termFreqs_mem_of_token {s : String} {tokens : List String}
    (hs : s ∈ tokens) :
    (s, tokens.count s) ∈ KoreanSparseEmbedding.termFreqs tokens := by
  apply alistGet_mem
  rw [termFreqs_get]
  simp [hs]

theorem termFreqs_keys_sub {s : String} {tokens : List String}
    (h : s ∈ (KoreanSparseEmbedding.termFreqs tokens).map Prod.fst) :
    s ∈ tokens := by
  rw [← alistGet_isSome_iff] at h
  rw [termFreqs_get] at h
  by_cases hs : s ∈ tokens
  · exact hs
  · simp [hs] at h

/-! ## Lemmas: the weighted-dictionary fold -/

theorem foldl_alistSet_eq_append {κ ν σ : Type} [DecidableEq κ]
    (key : σ → κ) (val : σ → ν) :
    ∀ (l : List σ) (acc : List (κ × ν)),
      (l.map key).Nodup →
      (∀ p ∈ l, alistGet (key p) acc = none) →
      l.foldl (fun d p => alistSet (key p) (val p) d) acc =
        acc ++ l.map fun p => (key p, val p) := by
  intro l
  induction l with
  | nil => intro acc _ _; simp
  | cons p rest ih =>
    intro acc hnd hacc
    rw [List.map_cons, List.nodup_cons] at hnd
    rw [List.foldl_cons,
      alistSet_of_get_none (val p) (hacc p (List.mem_cons_self p rest)),
      ih _ hnd.2, List.append_assoc]
    · simp
    · intro q hq
      rw [alistGet_append]
      rw [hacc q (List.mem_cons_of_mem p hq)]
      have hkq : key q ≠ key p := by
        intro he
        exact hnd.1 (he ▸ List.mem_map_of_mem key hq)
      simp [alistGet, Ne.symm hkq]

theorem mem_foldl_alistSet_val {κ ν σ : Type} [DecidableEq κ]
    (key : σ → κ) (val : σ → ν) (P : ν → Prop) :
    ∀ (l : List σ) (acc : List (κ × ν)),
      (∀ p ∈ l, P (val p)) → (∀ q ∈ acc, P q.2) →
      ∀ q ∈ l.foldl (fun d p => alistSet (key p) (val p) d) acc, P q.2 := by
  intro l
  induction l with
  | nil => intro acc _ hacc q hq; exact hacc q hq
  | cons p rest ih =>
    intro acc hl hacc q hq
    refine ih _ (fun r hr => hl r (List.mem_cons_of_mem p hr)) ?_ q hq
    intro r hr
    rcases mem_alistSet hr with h | h
    · rw [h]
      exact hl p (List.mem_cons_self p rest)
    · exact hacc r h

theorem foldl_alistSet_ne_nil {κ ν σ : Type} [DecidableEq κ]
    (key : σ → κ) (val : σ → ν) :
    ∀ (l : List σ) (acc : List (κ × ν)), acc ≠ [] →
      l.foldl (fun d p => alistSet (key p) (val p) d) acc ≠ [] := by
  intro l
  induction l with
  | nil => intro acc hacc; simpa using hacc
  | cons p rest ih =>
    intro acc _
    exact ih _ (alistSet_ne_nil _ _ _)

/-! ## C2: pre-normalization weights of the Korean path -/

theorem tokenize_isEmpty_false {kiwi : String → Except String (List KiwiToken)}
    {text : String} (hne : KoreanSparseEmbedding.tokenize kiwi text ≠ []) :
    (KoreanSparseEmbedding.tokenize kiwi text).isEmpty = false := by
  cases htok : KoreanSparseEmbedding.tokenize kiwi text with
  | nil => exact absurd htok hne
  | cons a l => rfl

theorem hashKeys_nodup (h : String → ℤ) {tokens : List String}
    (hinj : ∀ t1 ∈ tokens, ∀ t2 ∈ tokens,
      KoreanSparseEmbedding.hashIndex h t1 = KoreanSparseEmbedding.hashIndex h t2 →
        t1 = t2) :
    (((KoreanSparseEmbedding.termFreqs tokens).map Prod.fst).map
        (KoreanSparseEmbedding.hashIndex h)).Nodup := by
  apply List.Nodup.map_on _ (termFreqs_keys_nodup tokens)
  intro t1 h1 t2 h2 he
  exact hinj t1 (termFreqs_keys_sub h1) t2 (termFreqs_keys_sub h2) he

theorem preVector_eq_map (h : String → ℤ)
    (kiwi : String → Except String (List KiwiToken)) (text : String)
    (hne : KoreanSparseEmbedding.tokenize kiwi text ≠ [])
    (hinj : ∀ t1 ∈ KoreanSparseEmbedding.tokenize kiwi text,
      ∀ t2 ∈ KoreanSparseEmbedding.tokenize kiwi text,
      KoreanSparseEmbedding.hashIndex h t1 = KoreanSparseEmbedding.hashIndex h t2 →
        t1 = t2) :
    KoreanSparseEmbedding.preVector h kiwi text =
      (KoreanSparseEmbedding.termFreqs (KoreanSparseEmbedding.tokenize kiwi text)).map
        fun p =>
          (KoreanSparseEmbedding.hashIndex h p.1,
            (if 0 < p.2 then 1 + Real.log (p.2 : ℝ) else 0) /
              Real.sqrt (((KoreanSparseEmbedding.tokenize kiwi text).length : ℕ) : ℝ)) := by
  have hie := tokenize_isEmpty_false hne
  simp only [KoreanSparseEmbedding.preVector, hie, Bool.false_eq_true, if_false]
  have heq := foldl_alistSet_eq_append
    (fun p : String × ℕ => KoreanSparseEmbedding.hashIndex h p.1)
    (fun p : String × ℕ =>
      (if 0 < p.2 then 1 + Real.log (p.2 : ℝ) else 0) /
        Real.sqrt (((KoreanSparseEmbedding.tokenize kiwi text).length : ℕ) : ℝ))
    (KoreanSparseEmbedding.termFreqs (KoreanSparseEmbedding.tokenize kiwi text)) []
    (by
      have hnd := hashKeys_nodup h hinj
      rw [List.map_map] at hnd
      simpa [Function.comp] using hnd)
    (fun p _ => rfl)
  simpa using heq

/-- C2: on any text whose retained-token sequence is non-empty, provided the
hash assigns the text's distinct terms distinct indices, `transform` gives
each distinct retained term of frequency `f` the pre-normalization weight
`(1.0 + ln f) / sqrt(doc_length)` with `doc_length` the total number of
retained tokens, stored at index `abs(hash(term)) % 2**31`, an index below
`2^31`. -/
theorem korean_preVector_weights (h : String → ℤ)
    (kiwi : String → Except String (List KiwiToken)) (text : String)
    (hne : KoreanSparseEmbedding.tokenize kiwi text ≠ [])
    (hinj : ∀ t1 ∈ KoreanSparseEmbedding.tokenize kiwi text,
      ∀ t2 ∈ KoreanSparseEmbedding.tokenize kiwi text,
      KoreanSparseEmbedding.hashIndex h t1 = KoreanSparseEmbedding.hashIndex h t2 →
        t1 = t2)
    (term : String) (hterm : term ∈ KoreanSparseEmbedding.tokenize kiwi text) :
    KoreanSparseEmbedding.hashIndex h term < 2 ^ 31 ∧
      alistGet (KoreanSparseEmbedding.hashIndex h term)
          (KoreanSparseEmbedding.preVector h kiwi text) =
        some ((1 + Real.log
            (((KoreanSparseEmbedding.tokenize kiwi text).count term : ℕ) : ℝ)) /
          Real.sqrt (((KoreanSparseEmbedding.tokenize kiwi text).length : ℕ) : ℝ)) := by
  constructor
  · exact Nat.mod_lt _ (by norm_num)
  · rw [preVector_eq_map h kiwi text hne hinj]
    have hcount : 0 < (KoreanSparseEmbedding.tokenize kiwi text).count term :=
      List.count_pos_iff.2 hterm
    have hmem :
        (KoreanSparseEmbedding.hashIndex h term,
          (if 0 < (KoreanSparseEmbedding.tokenize kiwi text).count term then
            1 + Real.log (((KoreanSparseEmbedding.tokenize kiwi text).count term : ℕ) : ℝ)
          else 0) /
            Real.sqrt (((KoreanSparseEmbedding.tokenize kiwi text).length : ℕ) : ℝ)) ∈
          (KoreanSparseEmbedding.termFreqs (KoreanSparseEmbedding.tokenize kiwi text)).map
            fun p =>
              (KoreanSparseEmbedding.hashIndex h p.1,
                (if 0 < p.2 then 1 + Real.log (p.2 : ℝ) else 0) /
                  Real.sqrt (((KoreanSparseEmbedding.tokenize kiwi text).length : ℕ) : ℝ)) :=
      List.mem_map_of_mem _ (termFreqs_mem_of_token hterm)
    rw [if_pos hcount] at hmem
    apply alistGet_of_mem_nodup _ hmem
    have hgoal := hashKeys_nodup h hinj
    rw [List.map_map] at hgoal
    simpa [Function.comp] using hgoal

/-- Witness for C2 at a concrete failing analyzer, hash, and one-token text. -/
theorem korean_preVector_weights_witness :
    KoreanSparseEmbedding.tokenize kiwiRaise "a" ≠ [] ∧
      (∀ t1 ∈ KoreanSparseEmbedding.tokenize kiwiRaise "a",
        ∀ t2 ∈ KoreanSparseEmbedding.tokenize kiwiRaise "a",
        KoreanSparseEmbedding.hashIndex hash7 t1 =
            KoreanSparseEmbedding.hashIndex hash7 t2 → t1 = t2) ∧
      "a" ∈ KoreanSparseEmbedding.tokenize kiwiRaise "a" ∧
      (KoreanSparseEmbedding.hashIndex hash7 "a" < 2 ^ 31 ∧
        alistGet (KoreanSparseEmbedding.hashIndex hash7 "a")
            (KoreanSparseEmbedding.preVector hash7 kiwiRaise "a") =
          some ((1 + Real.log
              (((KoreanSparseEmbedding.tokenize kiwiRaise "a").count "a" : ℕ) : ℝ)) /
            Real.sqrt (((KoreanSparseEmbedding.tokenize kiwiRaise "a").length : ℕ) : ℝ))) := by
  have h1 : KoreanSparseEmbedding.tokenize kiwiRaise "a" ≠ [] := by decide
  have h2 : ∀ t1 ∈ KoreanSparseEmbedding.tokenize kiwiRaise "a",
      ∀ t2 ∈ KoreanSparseEmbedding.tokenize kiwiRaise "a",
      KoreanSparseEmbedding.hashIndex hash7 t1 =
          KoreanSparseEmbedding.hashIndex hash7 t2 → t1 = t2 := by decide
  have h3 : "a" ∈ KoreanSparseEmbedding.tokenize kiwiRaise "a" := by decide
  exact ⟨h1, h2, h3, korean_preVector_weights hash7 kiwiRaise "a" h1 h2 "a" h3⟩

/-! ## Lemmas: positivity and the L2 norm -/

theorem tokens_length_pos {kiwi : String → Except String (List KiwiToken)}
    {text : String} (hne : KoreanSparseEmbedding.tokenize kiwi text ≠ []) :
    (0 : ℝ) < Real.sqrt ((KoreanSparseEmbedding.tokenize kiwi text).length : ℝ) := by
  apply Real.sqrt_pos.2
  have : 0 < (KoreanSparseEmbedding.tokenize kiwi text).length :=
    List.length_pos.2 hne
  exact_mod_cast this

theorem preVector_values_pos (h : String → ℤ)
    (kiwi : String → Except String (List KiwiToken)) (text : String) :
    ∀ q ∈ KoreanSparseEmbedding.preVector h kiwi text, (0 : ℝ) < q.2 := by
  unfold KoreanSparseEmbedding.preVector
  by_cases hie : (KoreanSparseEmbedding.tokenize kiwi text).isEmpty
  · simp [hie]
  · have hne : KoreanSparseEmbedding.tokenize kiwi text ≠ [] := by
      cases htok : KoreanSparseEmbedding.tokenize kiwi text with
      | nil => rw [htok] at hie; exact absurd rfl hie
      | cons a l => simp
    simp only [hie, Bool.false_eq_true, if_false]
    apply mem_foldl_alistSet_val
      (fun p : String × ℕ => KoreanSparseEmbedding.hashIndex h p.1)
      (fun p : String × ℕ =>
        (if 0 < p.2 then 1 + Real.log (p.2 : ℝ) else 0) /
          Real.sqrt ((KoreanSparseEmbedding.tokenize kiwi text).length : ℝ))
      (fun v => 0 < v)
    · intro p hp
      have hfreq := termFreqs_mem_freq hp
      have hpos : 0 < p.2 := by
        rw [hfreq.2]
        exact List.count_pos_iff.2 hfreq.1
      rw [if_pos hpos]
      apply div_pos _ (tokens_length_pos hne)
      have hlog : (0 : ℝ) ≤ Real.log (p.2 : ℝ) := by
        apply Real.log_nonneg
        exact_mod_cast hpos
      linarith
    · intro q hq
      simp at hq

theorem sum_sq_nonneg (vs : List ℝ) : (0 : ℝ) ≤ (vs.map fun v => v ^ 2).sum := by
  apply List.sum_nonneg
  intro x hx
  rcases List.mem_map.1 hx with ⟨v, _, hv⟩
  rw [← hv]
  exact sq_nonneg v

theorem sum_sq_pos_of_mem_pos {vs : List ℝ} {v : ℝ} (hv : v ∈ vs) (hpos : 0 < v) :
    (0 : ℝ) < (vs.map fun v => v ^ 2).sum := by
  induction vs with
  | nil => simp at hv
  | cons w ws ih =>
    rw [List.map_cons, List.sum_cons]
    rcases List.mem_cons.1 hv with h | h
    · subst h
      have := sum_sq_nonneg ws
      nlinarith
    · have := ih h
      nlinarith [sq_nonneg w]

theorem sum_sq_div (vs : List ℝ) (c : ℝ) :
    ((vs.map fun v => v / c).map fun v => v ^ 2).sum =
      ((vs.map fun v => v ^ 2).sum) / c ^ 2 := by
  induction vs with
  | nil => simp
  | cons w ws ih =>
    simp only [List.map_cons, List.sum_cons, ih]
    rw [div_pow, add_div]

theorem termFreqs_ne_nil {tokens : List String} (hne : tokens ≠ []) :
    KoreanSparseEmbedding.termFreqs tokens ≠ [] := by
  cases tokens with
  | nil => exact absurd rfl hne
  | cons t ts =>
    intro hcon
    have := termFreqs_get t (t :: ts)
    rw [hcon] at this
    simp [alistGet] at this

theorem preVector_ne_nil (h : String → ℤ)
    (kiwi : String → Except String (List KiwiToken)) (text : String)
    (hne : KoreanSparseEmbedding.tokenize kiwi text ≠ []) :
    KoreanSparseEmbedding.preVector h kiwi text ≠ [] := by
  have hie := tokenize_isEmpty_false hne
  unfold KoreanSparseEmbedding.preVector
  simp only [hie, Bool.false_eq_true, if_false]
  have htf := termFreqs_ne_nil hne
  cases htf' : KoreanSparseEmbedding.termFreqs (KoreanSparseEmbedding.tokenize kiwi text) with
  | nil => exact absurd htf' htf
  | cons p rest =>
    rw [List.foldl_cons]
    exact foldl_alistSet_ne_nil _ _ rest _ (alistSet_ne_nil _ _ _)

theorem preVector_norm_pos (h : String → ℤ)
    (kiwi : String → Except String (List KiwiToken)) (text : String)
    (hne : KoreanSparseEmbedding.tokenize kiwi text ≠ []) :
    0 < l2normValues ((KoreanSparseEmbedding.preVector h kiwi text).map Prod.snd) := by
  unfold l2normValues
  apply Real.sqrt_pos.2
  cases hpre : KoreanSparseEmbedding.preVector h kiwi text with
  | nil => exact absurd hpre (preVector_ne_nil h kiwi text hne)
  | cons q rest =>
    apply sum_sq_pos_of_mem_pos
      (List.mem_map_of_mem Prod.snd (List.mem_cons_self q rest))
    have := preVector_values_pos h kiwi text q
    rw [hpre] at this
    exact this (List.mem_cons_self q rest)

theorem pre_isEmpty_false (h : String → ℤ)
    (kiwi : String → Except String (List KiwiToken)) (text : String)
    (hne : KoreanSparseEmbedding.tokenize kiwi text ≠ []) :
    (KoreanSparseEmbedding.preVector h kiwi text).isEmpty = false := by
  cases hpre : KoreanSparseEmbedding.preVector h kiwi text with
  | nil => exact absurd hpre (preVector_ne_nil h kiwi text hne)
  | cons q rest => rfl

/-- C3 (amended): on the primary Korean path, for any text whose
retained-token sequence is non-empty, the Euclidean norm of the produced
weights is exactly 1 in exact arithmetic, in particular within
[0.99, 1.01].  (The multilingual path only satisfies this when it returns
the Korean embedder's result; a delegation to the fallback embedder is
returned without normalization, see the counterexample.) -/
theorem korean_transform_norm_unit (h : String → ℤ)
    (kiwi : String → Except String (List KiwiToken)) (text : String)
    (hne : KoreanSparseEmbedding.tokenize kiwi text ≠ []) :
    l2normValues ((KoreanSparseEmbedding.transform h kiwi text).map Prod.snd) = 1 ∧
      (0.99 : ℝ) ≤
        l2normValues ((KoreanSparseEmbedding.transform h kiwi text).map Prod.snd) ∧
      l2normValues ((KoreanSparseEmbedding.transform h kiwi text).map Prod.snd) ≤
        (1.01 : ℝ) := by
  have hmain :
      l2normValues ((KoreanSparseEmbedding.transform h kiwi text).map Prod.snd) = 1 := by
    have hie := pre_isEmpty_false h kiwi text hne
    have hnorm := preVector_norm_pos h kiwi text hne
    unfold KoreanSparseEmbedding.transform
    simp only [hie, Bool.false_eq_true, if_false, if_pos hnorm]
    have hS : (0 : ℝ) <
        (((KoreanSparseEmbedding.preVector h kiwi text).map Prod.snd).map
          fun v => v ^ 2).sum := by
      have := hnorm
      unfold l2normValues at this
      exact Real.sqrt_pos.1 this
    rw [List.map_map]
    have hvals :
        ((KoreanSparseEmbedding.preVector h kiwi text).map
          (Prod.snd ∘ fun p => (p.1, p.2 /
            l2normValues ((KoreanSparseEmbedding.preVector h kiwi text).map Prod.snd)))) =
        (((KoreanSparseEmbedding.preVector h kiwi text).map Prod.snd).map
          fun v => v /
            l2normValues ((KoreanSparseEmbedding.preVector h kiwi text).map Prod.snd)) := by
      rw [List.map_map]
      rfl
    rw [hvals]
    unfold l2normValues
    rw [sum_sq_div]
    rw [Real.sq_sqrt (sum_sq_nonneg _)]
    rw [div_self (ne_of_gt hS)]
    exact Real.sqrt_one
  refine ⟨hmain, ?_, ?_⟩ <;> rw [hmain] <;> norm_num

/-- Witness for C3 at a concrete failing analyzer and one-token text. -/
theorem korean_transform_norm_unit_witness :
    KoreanSparseEmbedding.tokenize kiwiRaise "a" ≠ [] ∧
      (l2normValues ((KoreanSparseEmbedding.transform hash7 kiwiRaise "a").map
          Prod.snd) = 1 ∧
        (0.99 : ℝ) ≤ l2normValues
          ((KoreanSparseEmbedding.transform hash7 kiwiRaise "a").map Prod.snd) ∧
        l2normValues ((KoreanSparseEmbedding.transform hash7 kiwiRaise "a").map
          Prod.snd) ≤ (1.01 : ℝ)) :=
  ⟨by decide, korean_transform_norm_unit hash7 kiwiRaise "a" (by decide)⟩

/-! ## Lemmas: branches of the multilingual single-item transform -/

theorem multilingual_guard_empty {self : MultilingualSparseEmbedding} {text : String}
    (hg : (text.isEmpty || pythonStripIsEmpty text) = true) :
    MultilingualSparseEmbedding.transform self text = [] := by
  simp [MultilingualSparseEmbedding.transform, hg]

theorem multilingual_korean_branch {self : MultilingualSparseEmbedding}
    {text : String} {ke : String → SparseVec}
    (hg : (text.isEmpty || pythonStripIsEmpty text) = false)
    (hik : MultilingualSparseEmbedding.isKoreanText text = true)
    (hke : self.koreanEmbedder = some ke)
    (hd : (ke text).isEmpty = false) :
    MultilingualSparseEmbedding.transform self text = ke text := by
  simp [MultilingualSparseEmbedding.transform, hg, hik, hke, hd]

theorem multilingual_korean_empty_fallthrough {self : MultilingualSparseEmbedding}
    {text : String} {ke : String → SparseVec} {fe : String → List (ℕ × ℝ)}
    (hg : (text.isEmpty || pythonStripIsEmpty text) = false)
    (hik : MultilingualSparseEmbedding.isKoreanText text = true)
    (hke : self.koreanEmbedder = some ke)
    (hd : (ke text).isEmpty = true)
    (hfe : self.fastembedEmbedder = some fe) :
    MultilingualSparseEmbedding.transform self text =
      MultilingualSparseEmbedding.buildDict (fe text) := by
  simp [MultilingualSparseEmbedding.transform, hg, hik, hke, hd, hfe]

theorem multilingual_fallback_branch {self : MultilingualSparseEmbedding}
    {text : String} {fe : String → List (ℕ × ℝ)}
    (hg : (text.isEmpty || pythonStripIsEmpty text) = false)
    (hik : MultilingualSparseEmbedding.isKoreanText text = false)
    (hfe : self.fastembedEmbedder = some fe) :
    MultilingualSparseEmbedding.transform self text =
      MultilingualSparseEmbedding.buildDict (fe text) := by
  simp [MultilingualSparseEmbedding.transform, hg, hik, hfe]

/-- C3 (counterexample): the claim, quantified over every non-empty
non-whitespace-only input text and both construction paths, fails in two
independent ways.  (a) On the primary Korean path, the non-empty,
non-whitespace text "을" — a lone particle, whose single token the POS
filter discards — produces the empty mapping, whose weight-list norm is 0,
outside [0.99, 1.01].  (b) On the multilingual path, a delegation to the
fallback embedder returns the fallback's weights without any normalization:
with a fallback behaviour satisfying the spec's fallback contract
(non-empty mapping of positive weights) — one index of weight 5 — the
returned vector for the non-Korean text "hello" has Euclidean norm 5. -/
theorem sparse_norm_fallback_counterexample :
    (("을".isEmpty || pythonStripIsEmpty "을") = false ∧
      KoreanSparseEmbedding.transform hash7 kiwiParticle "을" = [] ∧
      l2normValues ((KoreanSparseEmbedding.transform hash7 kiwiParticle
          "을").map Prod.snd) = 0 ∧
      ¬((0.99 : ℝ) ≤ 0 ∧ (0 : ℝ) ≤ 1.01)) ∧
    (MultilingualSparseEmbedding.transform ⟨none, some fastembedFive⟩ "hello" =
        [(0, 5)] ∧
      l2normValues
          ((MultilingualSparseEmbedding.transform ⟨none, some fastembedFive⟩
            "hello").map Prod.snd) = 5 ∧
      ¬((0.99 : ℝ) ≤ 5 ∧ (5 : ℝ) ≤ 1.01)) := by
  have hke : KoreanSparseEmbedding.transform hash7 kiwiParticle "을" = [] :=
    transform_of_tokenize_nil (by decide)
  refine ⟨⟨by decide, hke, ?_, ?_⟩, ?_⟩
  · rw [hke]
    unfold l2normValues
    simp
  · intro hc
    have := hc.1
    norm_num at this
  have hg : ("hello".isEmpty || pythonStripIsEmpty "hello") = false := by decide
  have hik : MultilingualSparseEmbedding.isKoreanText "hello" = false := by
    have hd : "hello".data = ['h', 'e', 'l', 'l', 'o'] := rfl
    have he : "hello".isEmpty = false := by decide
    simp [MultilingualSparseEmbedding.isKoreanText, hd, he]
  have heq : MultilingualSparseEmbedding.transform ⟨none, some fastembedFive⟩
      "hello" = [(0, 5)] := by
    rw [multilingual_fallback_branch hg hik rfl]
    rfl
  refine ⟨heq, ?_, ?_⟩
  · rw [heq]
    unfold l2normValues
    simp only [List.map_cons, List.map_nil, List.sum_cons, List.sum_nil, add_zero]
    exact Real.sqrt_sq (by norm_num)
  · intro hc
    have := hc.2
    norm_num at this

/-- C4: the sparse-vector construction is deterministic in the input text
(for the fixed process hash and analyzer state): the index sequence of a
second call is identical, and any weight stored at an index by the two calls
differs by at most `1e-6` (in the exact embedding, by exactly 0). -/
theorem korean_transform_deterministic (h : String → ℤ)
    (kiwi : String → Except String (List KiwiToken)) (text : String)
    (i : ℕ) (w w' : ℝ)
    (h1 : alistGet i (KoreanSparseEmbedding.transform h kiwi text) = some w)
    (h2 : alistGet i (KoreanSparseEmbedding.transform h kiwi text) = some w') :
    (KoreanSparseEmbedding.transform h kiwi text).map Prod.fst =
        (KoreanSparseEmbedding.transform h kiwi text).map Prod.fst ∧
      |w - w'| ≤ (1e-6 : ℝ) := by
  refine ⟨rfl, ?_⟩
  rw [h1] at h2
  have hw : w = w' := Option.some.inj h2
  rw [hw, sub_self, abs_zero]
  norm_num

theorem korean_transform_eval_a :
    KoreanSparseEmbedding.transform hash7 kiwiRaise "a" = [(7, 1)] := by
  have htok : KoreanSparseEmbedding.tokenize kiwiRaise "a" = ["a"] := by decide
  have hne : KoreanSparseEmbedding.tokenize kiwiRaise "a" ≠ [] := by decide
  have hinj : ∀ t1 ∈ KoreanSparseEmbedding.tokenize kiwiRaise "a",
      ∀ t2 ∈ KoreanSparseEmbedding.tokenize kiwiRaise "a",
      KoreanSparseEmbedding.hashIndex hash7 t1 =
        KoreanSparseEmbedding.hashIndex hash7 t2 → t1 = t2 := by decide
  have htf : KoreanSparseEmbedding.termFreqs ["a"] = [("a", 1)] := by decide
  have hpre : KoreanSparseEmbedding.preVector hash7 kiwiRaise "a" = [(7, 1)] := by
    rw [preVector_eq_map hash7 kiwiRaise "a" hne hinj, htok, htf]
    have hidx : KoreanSparseEmbedding.hashIndex hash7 "a" = 7 := by decide
    simp [hidx]
  unfold KoreanSparseEmbedding.transform
  rw [hpre]
  have hnorm : l2normValues [(1 : ℝ)] = 1 := by
    unfold l2normValues
    simp
  simp [hnorm]

/-- Witness for C4 at a concrete hash, analyzer and text. -/
theorem korean_transform_deterministic_witness :
    alistGet 7 (KoreanSparseEmbedding.transform hash7 kiwiRaise "a") = some 1 ∧
      ((KoreanSparseEmbedding.transform hash7 kiwiRaise "a").map Prod.fst =
          (KoreanSparseEmbedding.transform hash7 kiwiRaise "a").map Prod.fst ∧
        |(1 : ℝ) - 1| ≤ (1e-6 : ℝ)) := by
  have hget : alistGet 7 (KoreanSparseEmbedding.transform hash7 kiwiRaise "a") =
      some 1 := by
    rw [korean_transform_eval_a]
    simp [alistGet]
  exact ⟨hget,
    korean_transform_deterministic hash7 kiwiRaise "a" 7 1 1 hget hget⟩

/-! ## C9: only finite positive weights are returned -/

theorem korean_transform_values_pos (h : String → ℤ)
    (kiwi : String → Except String (List KiwiToken)) (text : String) :
    ∀ q ∈ KoreanSparseEmbedding.transform h kiwi text, (0 : ℝ) < q.2 := by
  intro q hq
  unfold KoreanSparseEmbedding.transform at hq
  by_cases hie : (KoreanSparseEmbedding.preVector h kiwi text).isEmpty = true
  · rw [if_pos hie] at hq
    rw [List.isEmpty_iff.1 hie] at hq
    simp at hq
  · rw [if_neg hie] at hq
    by_cases hn : 0 < l2normValues
        ((KoreanSparseEmbedding.preVector h kiwi text).map Prod.snd)
    · rw [if_pos hn] at hq
      rcases List.mem_map.1 hq with ⟨p, hp, hpq⟩
      rw [← hpq]
      exact div_pos (preVector_values_pos h kiwi text p hp) hn
    · rw [if_neg hn] at hq
      exact preVector_values_pos h kiwi text q hq

theorem buildDict_values_pos {fe : List (ℕ × ℝ)}
    (hfe : ∀ q ∈ fe, (0 : ℝ) < q.2) :
    ∀ q ∈ MultilingualSparseEmbedding.buildDict fe, (0 : ℝ) < q.2 := by
  unfold MultilingualSparseEmbedding.buildDict
  have := mem_foldl_alistSet_val (Prod.fst : ℕ × ℝ → ℕ)
    (Prod.snd : ℕ × ℝ → ℝ) (fun v => 0 < v) fe [] hfe (by simp)
  intro q hq
  exact this q hq

/-- C9: every weight in the returned mappings is a (finite) positive real:
the Korean path's weights are positive before and after normalization, and
the multilingual path returns either the Korean result or the converted
fallback weights, which are positive under the fallback's documented
contract (`hfe`).  In the exact real-number embedding no NaN or infinity
exists to propagate; positivity is what remains of the claim, and it holds
without any rejection step because every produced weight is
`(1 + ln f)/sqrt(n)` scaled by a positive norm. -/
theorem transform_weights_positive (h : String → ℤ)
    (kiwi : String → Except String (List KiwiToken))
    (fe : String → List (ℕ × ℝ)) (text : String)
    (hfe : ∀ t : String, ∀ q ∈ fe t, (0 : ℝ) < q.2) :
    (∀ q ∈ KoreanSparseEmbedding.transform h kiwi text, (0 : ℝ) < q.2) ∧
      (∀ q ∈ MultilingualSparseEmbedding.transform
          ⟨some (KoreanSparseEmbedding.transform h kiwi), some fe⟩ text,
        (0 : ℝ) < q.2) := by
  refine ⟨korean_transform_values_pos h kiwi text, ?_⟩
  intro q hq
  by_cases hg : (text.isEmpty || pythonStripIsEmpty text) = true
  · rw [multilingual_guard_empty hg] at hq
    simp at hq
  · have hg' : (text.isEmpty || pythonStripIsEmpty text) = false :=
      Bool.not_eq_true _ ▸ Bool.of_not_eq_true hg
    by_cases hik : MultilingualSparseEmbedding.isKoreanText text = true
    · by_cases hd : (KoreanSparseEmbedding.transform h kiwi text).isEmpty = true
      · rw [multilingual_korean_empty_fallthrough hg' hik rfl hd rfl] at hq
        exact buildDict_values_pos (hfe text) q hq
      · have hd' : (KoreanSparseEmbedding.transform h kiwi text).isEmpty = false :=
          Bool.of_not_eq_true hd
        rw [multilingual_korean_branch hg' hik rfl hd'] at hq
        exact korean_transform_values_pos h kiwi text q hq
    · have hik' : MultilingualSparseEmbedding.isKoreanText text = false :=
        Bool.of_not_eq_true hik
      rw [multilingual_fallback_branch hg' hik' rfl] at hq
      exact buildDict_values_pos (hfe text) q hq

/-- Witness for C9 at a concrete unit-weight fallback and text. -/
theorem transform_weights_positive_witness :
    (∀ t : String, ∀ q ∈ fastembedUnit t, (0 : ℝ) < q.2) ∧
      ((∀ q ∈ KoreanSparseEmbedding.transform hash7 kiwiRaise "a",
          (0 : ℝ) < q.2) ∧
        (∀ q ∈ MultilingualSparseEmbedding.transform
            ⟨some (KoreanSparseEmbedding.transform hash7 kiwiRaise),
              some fastembedUnit⟩ "a",
          (0 : ℝ) < q.2)) := by
  have hfe : ∀ t : String, ∀ q ∈ fastembedUnit t, (0 : ℝ) < q.2 := by
    intro t q hq
    simp [fastembedUnit] at hq
    rw [hq]
    norm_num
  exact ⟨hfe, transform_weights_positive hash7 kiwiRaise fastembedUnit "a" hfe⟩

/-! ## C10: single-item fallthrough vs batch -/

theorem korean_char_not_space {c : Char} (hc : 0xAC00 ≤ c.toNat) :
    pythonIsSpace c = false := by
  simp [pythonIsSpace]
  omega

theorem isKoreanText_guard_false {text : String}
    (hik : MultilingualSparseEmbedding.isKoreanText text = true) :
    (text.isEmpty || pythonStripIsEmpty text) = false := by
  unfold MultilingualSparseEmbedding.isKoreanText at hik
  by_cases he : text.isEmpty = true
  · rw [if_pos he] at hik
    exact absurd hik (by simp)
  · rw [if_neg he] at hik
    by_cases ht : (text.data.filter fun c => c != ' ').length = 0
    · rw [if_pos ht] at hik
      exact absurd hik (by simp)
    · rw [if_neg ht] at hik
      rw [decide_eq_true_iff] at hik
      have hkpos : 0 <
          (text.data.filter fun c => 0xAC00 ≤ c.toNat && c.toNat ≤ 0xD7AF).length := by
        rcases Nat.eq_zero_or_pos
          ((text.data.filter fun c => 0xAC00 ≤ c.toNat && c.toNat ≤ 0xD7AF).length)
          with hk0 | hk
        · rw [hk0] at hik
          rw [Nat.cast_zero, zero_div] at hik
          norm_num at hik
        · exact hk
      have hex : ∃ c ∈ text.data, (0xAC00 ≤ c.toNat && c.toNat ≤ 0xD7AF) = true := by
        cases hfil : text.data.filter fun c => 0xAC00 ≤ c.toNat && c.toNat ≤ 0xD7AF with
        | nil => rw [hfil] at hkpos; simp at hkpos
        | cons c rest =>
          have hcfil : c ∈ text.data.filter
              fun c => 0xAC00 ≤ c.toNat && c.toNat ≤ 0xD7AF := by
            rw [hfil]
            exact List.mem_cons_self c rest
          exact ⟨c, (List.mem_filter.1 hcfil).1, (List.mem_filter.1 hcfil).2⟩
      rcases hex with ⟨c, hcmem, hcrange⟩
      rw [Bool.and_eq_true] at hcrange
      have hcspace : pythonIsSpace c = false :=
        korean_char_not_space (by simpa using hcrange.1)
      have hstrip : pythonStripIsEmpty text = false := by
        unfold pythonStripIsEmpty
        rw [Bool.eq_false_iff]
        intro hall
        rw [List.all_eq_true] at hall
        rw [hall c hcmem] at hcspace
        exact absurd hcspace (by simp)
      have hemp : text.isEmpty = false := Bool.of_not_eq_true he
      rw [hemp, hstrip]
      rfl

/-- C10: a text the router detects as Korean but whose Korean embedding is
the empty dict is handled inconsistently: the single-item transform falls
through to the FastEmbed fallback (when available) and returns its
embedding, while the batch transform performs no such fallthrough and
returns the empty dict for that position. -/
theorem single_vs_batch_fallthrough (h : String → ℤ)
    (kiwi : String → Except String (List KiwiToken))
    (fe : String → List (ℕ × ℝ)) (text : String)
    (hik : MultilingualSparseEmbedding.isKoreanText text = true)
    (hke : KoreanSparseEmbedding.transform h kiwi text = []) :
    MultilingualSparseEmbedding.transform
        ⟨some (KoreanSparseEmbedding.transform h kiwi), some fe⟩ text =
      MultilingualSparseEmbedding.buildDict (fe text) ∧
    MultilingualSparseEmbedding.batchTransform
        ⟨some (KoreanSparseEmbedding.transform h kiwi), some fe⟩ [text] =
      [[]] := by
  constructor
  · exact multilingual_korean_empty_fallthrough (isKoreanText_guard_false hik) hik
      rfl (by rw [hke]; rfl) rfl
  · unfold MultilingualSparseEmbedding.batchTransform
    simp [MultilingualSparseEmbedding.koreanPart,
      MultilingualSparseEmbedding.nonKoreanPart,
      MultilingualSparseEmbedding.writeBack, hik, hke]

/-- Witness for C10: the particle-only text "을" is routed Korean, the POS
filter drops its single token, so the Korean embedding is empty; the single
and batch paths then disagree. -/
theorem single_vs_batch_fallthrough_witness :
    MultilingualSparseEmbedding.isKoreanText "을" = true ∧
      KoreanSparseEmbedding.transform hash7 kiwiParticle "을" = [] ∧
      (MultilingualSparseEmbedding.transform
          ⟨some (KoreanSparseEmbedding.transform hash7 kiwiParticle),
            some fastembedUnit⟩ "을" =
        MultilingualSparseEmbedding.buildDict (fastembedUnit "을") ∧
      MultilingualSparseEmbedding.batchTransform
          ⟨some (KoreanSparseEmbedding.transform hash7 kiwiParticle),
            some fastembedUnit⟩ ["을"] =
        [[]]) := by
  have hik : MultilingualSparseEmbedding.isKoreanText "을" = true := by
    have hd : "을".data = [Char.ofNat 0xC744] := rfl
    have he : "을".isEmpty = false := by decide
    simp [MultilingualSparseEmbedding.isKoreanText, hd, he]
    norm_num
  have hke : KoreanSparseEmbedding.transform hash7 kiwiParticle "을" = [] :=
    transform_of_tokenize_nil (by decide)
  exact ⟨hik, hke,
    single_vs_batch_fallthrough hash7 kiwiParticle fastembedUnit "을" hik hke⟩

/-! ## C6: batch order preservation -/

theorem writeBack_length (pairs : List (ℕ × SparseVec)) :
    ∀ acc : List SparseVec,
      (MultilingualSparseEmbedding.writeBack pairs acc).length = acc.length := by
  induction pairs with
  | nil => intro acc; rfl
  | cons p ps ih =>
    intro acc
    unfold MultilingualSparseEmbedding.writeBack at ih ⊢
    rw [List.foldl_cons, ih, List.length_set]

theorem writeBack_get_not_mem {pairs : List (ℕ × SparseVec)} {j : ℕ}
    (hj : j ∉ pairs.map Prod.fst) :
    ∀ acc : List SparseVec,
      (MultilingualSparseEmbedding.writeBack pairs acc).get? j = acc.get? j := by
  induction pairs with
  | nil => intro acc; rfl
  | cons p ps ih =>
    intro acc
    rw [List.map_cons, List.mem_cons] at hj
    push_neg at hj
    unfold MultilingualSparseEmbedding.writeBack at ih ⊢
    rw [List.foldl_cons, ih hj.2, List.get?_set_ne _ _ (Ne.symm hj.1)]

theorem writeBack_get_mem {pairs : List (ℕ × SparseVec)} {j : ℕ} {v : SparseVec}
    (hnd : (pairs.map Prod.fst).Nodup) (hmem : (j, v) ∈ pairs) :
    ∀ acc : List SparseVec, j < acc.length →
      (MultilingualSparseEmbedding.writeBack pairs acc).get? j = some v := by
  induction pairs with
  | nil => intro acc _; simp at hmem
  | cons p ps ih =>
    intro acc hlt
    rw [List.map_cons, List.nodup_cons] at hnd
    unfold MultilingualSparseEmbedding.writeBack at ih ⊢
    rw [List.foldl_cons]
    rcases List.mem_cons.1 hmem with h | h
    · have hp1 : p.1 = j := by rw [← h]
      have hjps : j ∉ ps.map Prod.fst := hp1 ▸ hnd.1
      have := writeBack_get_not_mem hjps (acc.set p.1 p.2)
      unfold MultilingualSparseEmbedding.writeBack at this
      rw [this, hp1]
      rw [List.get?_set_eq_of_lt _ hlt]
      rw [← h]
    · exact ih hnd.2 h (acc.set p.1 p.2) (by rw [List.length_set]; exact hlt)

theorem koreanPart_fst_nodup (texts : List String) :
    ((MultilingualSparseEmbedding.koreanPart texts).map Prod.fst).Nodup :=
  List.Nodup.sublist
    (List.Sublist.map Prod.fst (List.filter_sublist texts.enum))
    (List.nodup_enum_map_fst texts)

theorem nonKoreanPart_fst_nodup (texts : List String) :
    ((MultilingualSparseEmbedding.nonKoreanPart texts).map Prod.fst).Nodup :=
  List.Nodup.sublist
    (List.Sublist.map Prod.fst (List.filter_sublist texts.enum))
    (List.nodup_enum_map_fst texts)

theorem enum_get_unique {texts : List String} {i : ℕ} {t t' : String}
    (h1 : texts.get? i = some t) (h2 : (i, t') ∈ texts.enum) : t' = t := by
  rw [List.mem_enum_iff_getElem?] at h2
  rw [List.get?_eq_getElem?] at h1
  rw [h1] at h2
  exact (Option.some.inj h2).symm

theorem zip_group_results {δ : Type} (part : List (ℕ × String))
    (emb : String → δ) :
    (part.map Prod.fst).zip
        (if (part.map Prod.snd).isEmpty then [] else (part.map Prod.snd).map emb) =
      part.map fun p => (p.1, emb p.2) := by
  by_cases hp : (part.map Prod.snd).isEmpty = true
  · have : part = [] := by
      cases part with
      | nil => rfl
      | cons q qs => simp at hp
    rw [this]
    simp
  · rw [if_neg hp, List.map_map]
    rw [List.zip_map' Prod.fst (emb ∘ Prod.snd) part]
    rfl

/-- C6: `batch_transform` returns one sparse vector per input text, in the
original positions: `result[i]` is the Korean embedder's vector when the
router detects `texts[i]` as Korean, and the converted FastEmbed vector
otherwise, for every way the inputs interleave the two groups. -/
theorem batch_transform_order_preserving (ke : String → SparseVec)
    (fe : String → List (ℕ × ℝ)) (self : MultilingualSparseEmbedding)
    (texts : List String)
    (hke : self.koreanEmbedder = some ke)
    (hfe : self.fastembedEmbedder = some fe) :
    (MultilingualSparseEmbedding.batchTransform self texts).length = texts.length ∧
      ∀ i t, texts.get? i = some t →
        (MultilingualSparseEmbedding.batchTransform self texts).get? i =
          some (if MultilingualSparseEmbedding.isKoreanText t then ke t
            else MultilingualSparseEmbedding.buildDict (fe t)) := by
  by_cases hemp : texts.isEmpty = true
  · have htn : texts = [] := by
      cases texts with
      | nil => rfl
      | cons a l => simp at hemp
    subst htn
    constructor
    · simp [MultilingualSparseEmbedding.batchTransform]
    · intro i t hit
      simp at hit
  · have hbatch : MultilingualSparseEmbedding.batchTransform self texts =
        MultilingualSparseEmbedding.writeBack
          ((MultilingualSparseEmbedding.nonKoreanPart texts).map
            fun p => (p.1, MultilingualSparseEmbedding.buildDict (fe p.2)))
          (MultilingualSparseEmbedding.writeBack
            ((MultilingualSparseEmbedding.koreanPart texts).map
              fun p => (p.1, ke p.2))
            (List.replicate texts.length [])) := by
      have hemp' : texts.isEmpty = false := Bool.of_not_eq_true hemp
      simp only [MultilingualSparseEmbedding.batchTransform, hke, hfe, hemp',
        Bool.false_eq_true, if_false]
      rw [zip_group_results (MultilingualSparseEmbedding.koreanPart texts) ke]
      rw [zip_group_results (MultilingualSparseEmbedding.nonKoreanPart texts)
        fun t => MultilingualSparseEmbedding.buildDict (fe t)]
    have hkfst : ((MultilingualSparseEmbedding.koreanPart texts).map
        (fun p => (p.1, ke p.2))).map Prod.fst =
        (MultilingualSparseEmbedding.koreanPart texts).map Prod.fst := by
      rw [List.map_map]
      rfl
    have hnfst : ((MultilingualSparseEmbedding.nonKoreanPart texts).map
        (fun p => (p.1, MultilingualSparseEmbedding.buildDict (fe p.2)))).map
          Prod.fst =
        (MultilingualSparseEmbedding.nonKoreanPart texts).map Prod.fst := by
      rw [List.map_map]
      rfl
    constructor
    · rw [hbatch, writeBack_length, writeBack_length, List.length_replicate]
    · intro i t hit
      have hi : i < texts.length := by
        by_contra hcon
        push_neg at hcon
        rw [List.get?_eq_none.2 hcon] at hit
        exact Option.noConfusion hit
      have henum : (i, t) ∈ texts.enum := by
        rw [List.mem_enum_iff_getElem?, ← List.get?_eq_getElem?]
        exact hit
      rw [hbatch]
      by_cases hkt : MultilingualSparseEmbedding.isKoreanText t = true
      · have hkp : (i, t) ∈ MultilingualSparseEmbedding.koreanPart texts := by
          unfold MultilingualSparseEmbedding.koreanPart
          rw [List.mem_filter]
          exact ⟨henum, by simpa using hkt⟩
        have hnotn : i ∉ ((MultilingualSparseEmbedding.nonKoreanPart texts).map
            fun p => (p.1, MultilingualSparseEmbedding.buildDict (fe p.2))).map
              Prod.fst := by
          rw [hnfst]
          intro hcon
          rcases List.mem_map.1 hcon with ⟨q, hq, hq1⟩
          have hqenum : (i, q.2) ∈ texts.enum := by
            have := List.mem_of_mem_filter hq
            rwa [show (i, q.2) = q from Prod.ext hq1.symm rfl]
          have hq2 : q.2 = t := enum_get_unique hit hqenum
          have := (List.mem_filter.1 hq).2
          rw [hq2] at this
          simp [hkt] at this
        rw [writeBack_get_not_mem hnotn]
        rw [if_pos hkt]
        apply writeBack_get_mem
        · rw [hkfst]
          exact koreanPart_fst_nodup texts
        · exact List.mem_map_of_mem _ hkp
        · rw [List.length_replicate]
          exact hi
      · have hkt' : MultilingualSparseEmbedding.isKoreanText t = false :=
          Bool.of_not_eq_true hkt
        have hnp : (i, t) ∈ MultilingualSparseEmbedding.nonKoreanPart texts := by
          unfold MultilingualSparseEmbedding.nonKoreanPart
          rw [List.mem_filter]
          exact ⟨henum, by simp [hkt']⟩
        rw [if_neg (by simp [hkt'])]
        apply writeBack_get_mem
        · rw [hnfst]
          exact nonKoreanPart_fst_nodup texts
        · exact List.mem_map_of_mem _ hnp
        · rw [writeBack_length, List.length_replicate]
          exact hi

/-- Witness for C6 on a concrete mixed Korean/Latin batch. -/
theorem batch_transform_order_preserving_witness :
    ((⟨some (fun _ => [(1, 1)]), some fastembedUnit⟩ :
        MultilingualSparseEmbedding).koreanEmbedder =
      some (fun _ => [(1, 1)])) ∧
      (["한", "ab"].get? 0 = some "한") ∧
      ((MultilingualSparseEmbedding.batchTransform
          ⟨some (fun _ => [(1, 1)]), some fastembedUnit⟩ ["한", "ab"]).length =
        (["한", "ab"] : List String).length ∧
        (MultilingualSparseEmbedding.batchTransform
            ⟨some (fun _ => [(1, 1)]), some fastembedUnit⟩ ["한", "ab"]).get? 0 =
          some (if MultilingualSparseEmbedding.isKoreanText "한" then
              (fun _ : String => ([(1, 1)] : SparseVec)) "한"
            else MultilingualSparseEmbedding.buildDict (fastembedUnit "한"))) := by
  have hmain := batch_transform_order_preserving (fun _ => [(1, 1)]) fastembedUnit
    ⟨some (fun _ => [(1, 1)]), some fastembedUnit⟩ ["한", "ab"] rfl rfl
  exact ⟨rfl, rfl, hmain.1, hmain.2 0 "한" rfl⟩

/-! ## C1 groundwork: reciprocal-rank contributions -/

theorem rankContrib_of_not_mem {α β : Type} [DecidableEq β] (k : ℤ)
    (getId : α → β) {id : β} :
    ∀ (l : List α) (rank : ℕ), id ∉ l.map getId →
      rankContrib k getId id l rank = 0 := by
  intro l
  induction l with
  | nil => intro rank _; rfl
  | cons res rest ih =>
    intro rank hmem
    rw [List.map_cons, List.mem_cons] at hmem
    push_neg at hmem
    unfold rankContrib
    rw [if_neg (fun he => hmem.1 he.symm), ih (rank + 1) hmem.2, add_zero]

theorem rankContrib_nodup {α β : Type} [DecidableEq β] (k : ℤ)
    (getId : α → β) (id : β) :
    ∀ (l : List α) (rank : ℕ), (l.map getId).Nodup →
      rankContrib k getId id l rank =
        if id ∈ l.map getId then
          1 / ((k : ℚ) + ((((l.map getId).indexOf id + rank : ℕ)) : ℚ))
        else 0 := by
  intro l
  induction l with
  | nil => intro rank _; simp [rankContrib]
  | cons res rest ih =>
    intro rank hnd
    rw [List.map_cons, List.nodup_cons] at hnd
    unfold rankContrib
    by_cases hres : getId res = id
    · rw [if_pos hres]
      have hnm : id ∉ rest.map getId := hres ▸ hnd.1
      rw [rankContrib_of_not_mem k getId rest (rank + 1) hnm, add_zero]
      rw [List.map_cons, if_pos (by rw [← hres]; exact List.mem_cons_self _ _)]
      rw [hres, List.indexOf_cons_self, Nat.zero_add]
    · rw [if_neg hres, zero_add, ih (rank + 1) hnd.2]
      rw [List.map_cons]
      by_cases hm : id ∈ rest.map getId
      · rw [if_pos hm, if_pos (List.mem_cons_of_mem _ hm)]
        rw [List.indexOf_cons_ne _ hres]
        have harith : (rest.map getId).indexOf id + 1 + rank =
            (rest.map getId).indexOf id + (rank + 1) := by omega
        rw [harith]
      · rw [if_neg hm, if_neg (by
          rw [List.mem_cons]
          push_neg
          exact ⟨fun he => hres he.symm, hm⟩)]

/-! ## C1 groundwork: first-encounter order -/

theorem firstEnc_foldl_nodup {β : Type} [DecidableEq β] :
    ∀ (ids : List β) (acc : List β), acc.Nodup →
      (ids.foldl (fun acc b => if b ∈ acc then acc else acc ++ [b]) acc).Nodup := by
  intro ids
  induction ids with
  | nil => intro acc hacc; exact hacc
  | cons b bs ih =>
    intro acc hacc
    rw [List.foldl_cons]
    by_cases hb : b ∈ acc
    · rw [if_pos hb]
      exact ih acc hacc
    · rw [if_neg hb]
      apply ih
      apply List.Nodup.append hacc (List.nodup_singleton b)
      intro x hx hxb
      rw [List.mem_singleton] at hxb
      subst hxb
      exact hb hx

theorem firstEncounterOrder_nodup {β : Type} [DecidableEq β] (ids : List β) :
    (firstEncounterOrder ids).Nodup :=
  firstEnc_foldl_nodup ids [] (List.nodup_nil)

/-! ## C1 groundwork: relative order in a list -/

theorem pair_sublist_total {γ : Type} (a b : γ) :
    ∀ l : List γ, a ∈ l → b ∈ l →
      a = b ∨ [a, b].Sublist l ∨ [b, a].Sublist l := by
  intro l
  induction l with
  | nil => intro ha _; simp at ha
  | cons x xs ih =>
    intro ha hb
    rcases List.mem_cons.1 ha with hax | hax
    · rcases List.mem_cons.1 hb with hbx | hbx
      · exact Or.inl (hax.trans hbx.symm)
      · refine Or.inr (Or.inl ?_)
        rw [hax]
        exact List.Sublist.cons₂ x (List.singleton_sublist.2 hbx)
    · rcases List.mem_cons.1 hb with hbx | hbx
      · refine Or.inr (Or.inr ?_)
        rw [hbx]
        exact List.Sublist.cons₂ x (List.singleton_sublist.2 hax)
      · rcases ih hax hbx with h | h | h
        · exact Or.inl h
        · exact Or.inr (Or.inl (h.cons x))
        · exact Or.inr (Or.inr (h.cons x))

theorem mem_of_pair_sublist_right {γ : Type} {a b : γ} {l : List γ}
    (h : [a, b].Sublist l) : b ∈ l := by
  have hb : [b].Sublist [a, b] :=
    List.Sublist.cons a (List.Sublist.refl [b])
  exact List.singleton_sublist.1 (hb.trans h)

theorem mem_of_pair_sublist_left {γ : Type} {a b : γ} {l : List γ}
    (h : [a, b].Sublist l) : a ∈ l := by
  have ha : [a].Sublist [a, b] :=
    List.Sublist.cons₂ a (List.nil_sublist [b])
  exact List.singleton_sublist.1 (ha.trans h)

theorem pair_sublist_antisymm {γ : Type} :
    ∀ l : List γ, l.Nodup → ∀ a b : γ,
      [a, b].Sublist l → [b, a].Sublist l → False := by
  intro l
  induction l with
  | nil =>
    intro _ a b h1 _
    exact absurd h1 (by simp)
  | cons x xs ih =>
    intro hnd a b h1 h2
    rw [List.nodup_cons] at hnd
    cases h1 with
    | cons _ h1' =>
      cases h2 with
      | cons _ h2' => exact ih hnd.2 a b h1' h2'
      | cons₂ _ h2' =>
        exact hnd.1 (mem_of_pair_sublist_right h1')
    | cons₂ _ h1' =>
      cases h2 with
      | cons _ h2' =>
        exact hnd.1 (mem_of_pair_sublist_right h2')
      | cons₂ _ h2' =>
        exact hnd.1 (List.singleton_sublist.1 h1')

/-! ## C1: the accumulation invariant of the fusion loops -/

theorem rankContrib_cons {α β : Type} [DecidableEq β] (k : ℤ) (getId : α → β)
    (id : β) (res : α) (rest : List α) (rank : ℕ) :
    rankContrib k getId id (res :: rest) rank =
      (if getId res = id then 1 / ((k : ℚ) + (rank : ℚ)) else 0) +
        rankContrib k getId id rest (rank + 1) := rfl

theorem processList_spec {α β : Type} [DecidableEq β] (k : ℤ) (getId : α → β) :
    ∀ (l : List α) (rank : ℕ) (st : RRFState α β),
      (∀ j : ℕ, j < l.length → (k : ℤ) + ((rank + j : ℕ) : ℤ) ≠ 0) →
      st.scores.map Prod.fst = st.resultMap.map Prod.fst →
      ∃ st', RRFFusion.processList k getId l rank st = some st' ∧
        st'.scores.map Prod.fst =
          (l.map getId).foldl
            (fun acc b => if b ∈ acc then acc else acc ++ [b])
            (st.scores.map Prod.fst) ∧
        st'.scores.map Prod.fst = st'.resultMap.map Prod.fst ∧
        (∀ id : β, (alistGet id st'.scores).getD 0 =
          (alistGet id st.scores).getD 0 + rankContrib k getId id l rank) ∧
        (∀ id : β, alistGet id st'.resultMap =
          (alistGet id st.resultMap).or (firstResult getId id l)) := by
  intro l
  induction l with
  | nil =>
    intro rank st _ hkeys
    refine ⟨st, rfl, by simp, hkeys, fun id => by simp [rankContrib],
      fun id => by simp [firstResult]⟩
  | cons res rest ih =>
    intro rank st hk hkeys
    have hkr : ¬((k : ℤ) + ((rank : ℕ) : ℤ) = 0) := by
      have := hk 0 (by simp)
      simpa using this
    have hkrest : ∀ j : ℕ, j < rest.length →
        (k : ℤ) + (((rank + 1) + j : ℕ) : ℤ) ≠ 0 := by
      intro j hj
      have := hk (j + 1) (by simpa using Nat.succ_lt_succ hj)
      have harith : rank + (j + 1) = rank + 1 + j := by omega
      rwa [harith] at this
    by_cases hpres : (alistGet (getId res) st.scores).isSome = true
    · -- the identifier is already present: only the score is bumped
      have hstep : RRFFusion.step k getId st rank res =
          some ⟨alistSet (getId res)
              ((alistGet (getId res) st.scores).getD 0 +
                1 / ((k : ℚ) + (rank : ℚ))) st.scores,
            st.resultMap⟩ := by
        unfold RRFFusion.step
        rw [if_neg hkr]
        simp only [hpres, if_true]
      have hpresmem : getId res ∈ st.scores.map Prod.fst :=
        (alistGet_isSome_iff _ _).1 hpres
      have hkeysA : (alistSet (getId res)
          ((alistGet (getId res) st.scores).getD 0 +
            1 / ((k : ℚ) + (rank : ℚ))) st.scores).map Prod.fst =
          st.scores.map Prod.fst := by
        rw [alistSet_keys, if_pos hpres]
      rcases ih (rank + 1)
          ⟨alistSet (getId res)
            ((alistGet (getId res) st.scores).getD 0 +
              1 / ((k : ℚ) + (rank : ℚ))) st.scores, st.resultMap⟩
          hkrest (hkeysA.trans hkeys) with
        ⟨st', hrun, hkeys', hinv', hscore', hrm'⟩
      refine ⟨st', ?_, ?_, hinv', ?_, ?_⟩
      · unfold RRFFusion.processList
        rw [hstep]
        exact hrun
      · rw [hkeys', hkeysA, List.map_cons, List.foldl_cons, if_pos hpresmem]
      · intro id
        rw [hscore' id, rankContrib_cons]
        by_cases hid : getId res = id
        · subst hid
          rw [alistGet_set_self, if_pos rfl]
          simp only [Option.getD_some]
          ring
        · rw [alistGet_set_ne _ _ hid, if_neg hid, zero_add]
      · intro id
        rw [hrm' id]
        unfold firstResult
        rw [List.find?_cons]
        by_cases hid : getId res = id
        · have hmemrm : getId res ∈ st.resultMap.map Prod.fst := hkeys ▸ hpresmem
          rw [← alistGet_isSome_iff] at hmemrm
          rcases Option.isSome_iff_exists.1 hmemrm with ⟨r, hr⟩
          rw [hid] at hr
          rw [hr]
          simp
        · have hd : decide (getId res = id) = false := decide_eq_false hid
          rw [hd]
    · -- first encounter: both dicts are extended
      have hget0 : alistGet (getId res) st.scores = none := by
        cases hg : alistGet (getId res) st.scores
        · rfl
        · rw [hg] at hpres
          simp at hpres
      have hisfalse : (alistGet (getId res) st.scores).isSome = false := by
        rw [hget0]
        rfl
      have hstep : RRFFusion.step k getId st rank res =
          some ⟨alistSet (getId res)
              ((0 : ℚ) + 1 / ((k : ℚ) + (rank : ℚ)))
              (alistSet (getId res) 0 st.scores),
            alistSet (getId res) res st.resultMap⟩ := by
        unfold RRFFusion.step
        rw [if_neg hkr]
        simp only [hisfalse, Bool.false_eq_true, if_false]
        rw [alistGet_set_self]
        rfl
      have hrmget0 : alistGet (getId res) st.resultMap = none := by
        rw [alistGet_eq_none_iff] at hget0 ⊢
        exact hkeys ▸ hget0
      have hkeysB : (alistSet (getId res)
            ((0 : ℚ) + 1 / ((k : ℚ) + (rank : ℚ)))
            (alistSet (getId res) 0 st.scores)).map Prod.fst =
          st.scores.map Prod.fst ++ [getId res] := by
        rw [alistSet_keys]
        rw [if_pos (by rw [alistGet_set_self]; rfl)]
        rw [alistSet_keys]
        rw [if_neg (by rw [hget0]; simp)]
      have hkeysBrm : (alistSet (getId res) res st.resultMap).map Prod.fst =
          st.resultMap.map Prod.fst ++ [getId res] := by
        rw [alistSet_keys, if_neg (by rw [hrmget0]; simp)]
      rcases ih (rank + 1)
          ⟨alistSet (getId res)
            ((0 : ℚ) + 1 / ((k : ℚ) + (rank : ℚ)))
            (alistSet (getId res) 0 st.scores),
          alistSet (getId res) res st.resultMap⟩
          hkrest (by rw [hkeysB, hkeysBrm, hkeys]) with
        ⟨st', hrun, hkeys', hinv', hscore', hrm'⟩
      have hnotmem : getId res ∉ st.scores.map Prod.fst := by
        rw [← alistGet_eq_none_iff]
        exact hget0
      refine ⟨st', ?_, ?_, hinv', ?_, ?_⟩
      · unfold RRFFusion.processList
        rw [hstep]
        exact hrun
      · rw [hkeys', hkeysB, List.map_cons, List.foldl_cons, if_neg hnotmem]
      · intro id
        rw [hscore' id, rankContrib_cons]
        by_cases hid : getId res = id
        · subst hid
          rw [alistGet_set_self, hget0, if_pos rfl]
          simp only [Option.getD_some, Option.getD_none]
          ring
        · rw [alistGet_set_ne _ _ hid, alistGet_set_ne _ _ hid,
            if_neg hid, zero_add]
      · intro id
        rw [hrm' id]
        unfold firstResult
        rw [List.find?_cons]
        by_cases hid : getId res = id
        · subst hid
          rw [alistGet_set_self, hrmget0]
          simp
        · have hd : decide (getId res = id) = false := decide_eq_false hid
          rw [alistGet_set_ne _ _ hid, hd]

theorem firstResult_append {α β : Type} [DecidableEq β] (getId : α → β)
    (id : β) (l₁ l₂ : List α) :
    firstResult getId id (l₁ ++ l₂) =
      (firstResult getId id l₁).or (firstResult getId id l₂) := by
  unfold firstResult
  exact List.find?_append

theorem processAll_spec {α β : Type} [DecidableEq β] (k : ℤ) (getId : α → β) :
    ∀ (lists : List (List α)) (st : RRFState α β),
      (∀ l ∈ lists, ∀ r : ℕ, 1 ≤ r → r ≤ l.length →
        (k : ℤ) + ((r : ℕ) : ℤ) ≠ 0) →
      st.scores.map Prod.fst = st.resultMap.map Prod.fst →
      ∃ st', RRFFusion.processAll k getId lists st = some st' ∧
        st'.scores.map Prod.fst =
          (lists.flatten.map getId).foldl
            (fun acc b => if b ∈ acc then acc else acc ++ [b])
            (st.scores.map Prod.fst) ∧
        st'.scores.map Prod.fst = st'.resultMap.map Prod.fst ∧
        (∀ id : β, (alistGet id st'.scores).getD 0 =
          (alistGet id st.scores).getD 0 +
            (lists.map fun l => rankContrib k getId id l 1).sum) ∧
        (∀ id : β, alistGet id st'.resultMap =
          (alistGet id st.resultMap).or
            (firstResult getId id lists.flatten)) := by
  intro lists
  induction lists with
  | nil =>
    intro st _ hkeys
    refine ⟨st, rfl, by simp, hkeys, fun id => by simp,
      fun id => by simp [firstResult]⟩
  | cons l ls ih =>
    intro st hk hkeys
    have hkl : ∀ j : ℕ, j < l.length → (k : ℤ) + ((1 + j : ℕ) : ℤ) ≠ 0 := by
      intro j hj
      exact hk l (List.mem_cons_self l ls) (1 + j) (by omega) (by omega)
    rcases processList_spec k getId l 1 st hkl hkeys with
      ⟨st1, hrun1, hkeys1, hinv1, hscore1, hrm1⟩
    rcases ih st1 (fun l' hl' => hk l' (List.mem_cons_of_mem l hl')) hinv1 with
      ⟨st', hrun', hkeys', hinv', hscore', hrm'⟩
    refine ⟨st', ?_, ?_, hinv', ?_, ?_⟩
    · unfold RRFFusion.processAll
      rw [hrun1]
      exact hrun'
    · rw [hkeys', hkeys1, List.flatten_cons, List.map_append, List.foldl_append]
    · intro id
      rw [hscore' id, hscore1 id, List.map_cons, List.sum_cons, add_assoc]
    · intro id
      rw [hrm' id, hrm1 id, List.flatten_cons, firstResult_append,
        Option.or_assoc]

/-! ## C1: the stable descending sort -/

theorem sortScores_perm {β : Type} [DecidableEq β] (scores : List (β × ℚ)) :
    (RRFFusion.sortScores scores).Perm scores :=
  List.perm_insertionSort _ scores

theorem sortScores_sorted {β : Type} [DecidableEq β] (scores : List (β × ℚ)) :
    (RRFFusion.sortScores scores).Pairwise fun p q => q.2 ≤ p.2 := by
  letI : IsTotal (β × ℚ) fun p q => q.2 ≤ p.2 := ⟨fun a b => le_total b.2 a.2⟩
  letI : IsTrans (β × ℚ) fun p q => q.2 ≤ p.2 :=
    ⟨fun a b c h1 h2 => le_trans h2 h1⟩
  exact List.sorted_insertionSort _ scores

theorem sortScores_stable {β : Type} [DecidableEq β] {scores : List (β × ℚ)}
    {a b : β × ℚ} (hab : b.2 ≤ a.2) (h : [a, b].Sublist scores) :
    [a, b].Sublist (RRFFusion.sortScores scores) :=
  List.pair_sublist_insertionSort hab h

theorem sortScores_tie_order {β : Type} [DecidableEq β] {scores : List (β × ℚ)}
    (hnd : scores.Nodup) {a b : β × ℚ}
    (h : [a, b].Sublist (RRFFusion.sortScores scores)) (htie : a.2 = b.2) :
    [a, b].Sublist scores := by
  have hnds : (RRFFusion.sortScores scores).Nodup :=
    (sortScores_perm scores).symm.nodup hnd
  have hamem : a ∈ scores :=
    (sortScores_perm scores).mem_iff.1 (mem_of_pair_sublist_left h)
  have hbmem : b ∈ scores :=
    (sortScores_perm scores).mem_iff.1 (mem_of_pair_sublist_right h)
  rcases pair_sublist_total a b scores hamem hbmem with hab | hab | hab
  · subst hab
    have hpw := List.Pairwise.sublist h hnds
    rw [List.pairwise_cons] at hpw
    exact absurd rfl (hpw.1 a (List.mem_singleton_self a))
  · exact hab
  · exfalso
    have hba : [b, a].Sublist (RRFFusion.sortScores scores) :=
      sortScores_stable (le_of_eq htie) hab
    exact pair_sublist_antisymm _ hnds a b h hba

/-! ## C1: the final pairing step of `fuse` -/

theorem mapM_lookup {α β : Type} [DecidableEq β] (rm : List (β × α)) :
    ∀ sorted : List (β × ℚ),
      (∀ p ∈ sorted, p.1 ∈ rm.map Prod.fst) →
      ∃ out : List (α × ℚ),
        (sorted.mapM fun p => (alistGet p.1 rm).map fun r => (r, p.2)) =
          some out ∧
        List.Forall₂ (fun (p : β × ℚ) (q : α × ℚ) =>
          alistGet p.1 rm = some q.1 ∧ q.2 = p.2) sorted out := by
  intro sorted
  induction sorted with
  | nil => intro _; exact ⟨[], rfl, List.Forall₂.nil⟩
  | cons p ps ih =>
    intro hmem
    have hp : (alistGet p.1 rm).isSome = true :=
      (alistGet_isSome_iff _ _).2 (hmem p (List.mem_cons_self p ps))
    rcases Option.isSome_iff_exists.1 hp with ⟨r, hr⟩
    rcases ih (fun q hq => hmem q (List.mem_cons_of_mem p hq)) with
      ⟨out, hout, hf2⟩
    refine ⟨(r, p.2) :: out, ?_, List.Forall₂.cons ⟨hr, rfl⟩ hf2⟩
    rw [List.mapM_cons, hr, hout]
    rfl

theorem forall2_exists_left {γ δ : Type} {R : γ → δ → Prop} :
    ∀ {l1 : List γ} {l2 : List δ}, List.Forall₂ R l1 l2 →
      ∀ q ∈ l2, ∃ p ∈ l1, R p q := by
  intro l1 l2 hf2
  induction hf2 with
  | nil => intro q hq; simp at hq
  | cons hR _ ih =>
    intro q hq
    rcases List.mem_cons.1 hq with hqd | hqd
    · subst hqd
      exact ⟨_, List.mem_cons_self _ _, hR⟩
    · rcases ih q hqd with ⟨p, hp, hpR⟩
      exact ⟨p, List.mem_cons_of_mem _ hp, hpR⟩

theorem forall2_proj {α β : Type} [DecidableEq β] (getId : α → β)
    (rm : List (β × α))
    (hcons : ∀ (id : β) (r : α), alistGet id rm = some r → getId r = id) :
    ∀ {sorted : List (β × ℚ)} {out : List (α × ℚ)},
      List.Forall₂ (fun (p : β × ℚ) (q : α × ℚ) =>
        alistGet p.1 rm = some q.1 ∧ q.2 = p.2) sorted out →
      out.map (fun q => (getId q.1, q.2)) = sorted := by
  intro sorted out hf2
  induction hf2 with
  | nil => rfl
  | cons hR hf2tail ih =>
    rw [List.map_cons, ih]
    congr 1
    rcases hR with ⟨hget, hval⟩
    rw [hcons _ _ hget, hval]

/-- C1 (amended): for every sequence of ranked result lists (any number,
including fewer than two and including empty lists), every id-extraction
function, and every integer `k` such that `k + r` is non-zero for each
1-based rank `r` occurring in some list (the code raises
`ZeroDivisionError` otherwise — see the counterexample), and provided each
single list ranks an identifier at most once, `fuse` returns one
(result, score) pair per distinct identifier, pairing each identifier with
its first-encountered result object; each score is the sum over the lists
containing the identifier of `1/(k + r)` with `r` its 1-based rank there; the
output is sorted descending by score, and tied identifiers keep the order in
which they were first encountered during list traversal. -/
theorem rrf_fuse_correct {α β : Type} [DecidableEq β] (k : ℤ) (getId : α → β)
    (lists : List (List α))
    (hk : ∀ l ∈ lists, ∀ r : ℕ, 1 ≤ r → r ≤ l.length →
      (k : ℤ) + ((r : ℕ) : ℤ) ≠ 0)
    (hnd : ∀ l ∈ lists, (l.map getId).Nodup) :
    ∃ out, RRFFusion.fuse k getId lists = some out ∧
      (out.map fun p => getId p.1).Perm
        (firstEncounterOrder (lists.flatten.map getId)) ∧
      (∀ p ∈ out, firstResult getId (getId p.1) lists.flatten = some p.1) ∧
      (∀ p ∈ out, p.2 = specScore k getId lists (getId p.1)) ∧
      out.Pairwise (fun p q => q.2 ≤ p.2) ∧
      (∀ p q : α × ℚ, [p, q].Sublist out → p.2 = q.2 →
        [getId p.1, getId q.1].Sublist
          (firstEncounterOrder (lists.flatten.map getId))) := by
  rcases processAll_spec k getId lists ⟨[], []⟩ hk rfl with
    ⟨st, hrun, hkeysEnc, hinv, hscore, hrm⟩
  have hEnc : st.scores.map Prod.fst =
      firstEncounterOrder (lists.flatten.map getId) := hkeysEnc
  have hKeysNodup : (st.scores.map Prod.fst).Nodup := by
    rw [hEnc]
    exact firstEncounterOrder_nodup _
  have hPairsNodup : st.scores.Nodup := hKeysNodup.of_map _
  have hrm0 : ∀ id : β, alistGet id st.resultMap =
      firstResult getId id lists.flatten := by
    intro id
    have := hrm id
    simpa [alistGet] using this
  have hconsist : ∀ (id : β) (r : α),
      alistGet id st.resultMap = some r → getId r = id := by
    intro id r hr
    rw [hrm0 id] at hr
    unfold firstResult at hr
    have hcd := List.find?_some hr
    simp only [decide_eq_true_eq] at hcd
    exact hcd
  have hscore0 : ∀ p ∈ st.scores, p.2 = specScore k getId lists p.1 := by
    intro p hp
    have hget : alistGet p.1 st.scores = some p.2 :=
      alistGet_of_mem_nodup hKeysNodup (by rwa [Prod.mk.eta])
    have hs := hscore p.1
    rw [hget] at hs
    simp only [Option.getD_some] at hs
    have hzero : (alistGet p.1
        (⟨[], []⟩ : RRFState α β).scores).getD 0 = 0 := rfl
    rw [hzero, zero_add] at hs
    have hmapeq : (lists.map fun l => rankContrib k getId p.1 l 1) =
        lists.map fun l =>
          if p.1 ∈ l.map getId then
            1 / ((k : ℚ) + (((l.map getId).indexOf p.1 : ℕ) + 1 : ℚ))
          else 0 := by
      apply List.map_congr_left
      intro l hl
      rw [rankContrib_nodup k getId p.1 l 1 (hnd l hl)]
      by_cases hm : p.1 ∈ l.map getId
      · rw [if_pos hm, if_pos hm]
        congr 1
        push_cast
        ring
      · rw [if_neg hm, if_neg hm]
    rw [hs]
    unfold specScore
    rw [hmapeq]
  have hinvKeys : ∀ p ∈ RRFFusion.sortScores st.scores,
      p.1 ∈ st.resultMap.map Prod.fst := by
    intro p hp
    have hps : p ∈ st.scores := (sortScores_perm st.scores).subset hp
    rw [← hinv]
    exact List.mem_map_of_mem Prod.fst hps
  rcases mapM_lookup st.resultMap (RRFFusion.sortScores st.scores) hinvKeys with
    ⟨out, hmapm, hf2⟩
  have hfuse : RRFFusion.fuse k getId lists = some out := by
    unfold RRFFusion.fuse
    rw [hrun]
    exact hmapm
  have hproj : out.map (fun q => (getId q.1, q.2)) =
      RRFFusion.sortScores st.scores :=
    forall2_proj getId st.resultMap hconsist hf2
  refine ⟨out, hfuse, ?_, ?_, ?_, ?_, ?_⟩
  · have h1 : out.map (fun p => getId p.1) =
        (RRFFusion.sortScores st.scores).map Prod.fst := by
      rw [← hproj, List.map_map]
      rfl
    rw [h1, ← hEnc]
    exact (sortScores_perm st.scores).map Prod.fst
  · intro p hp
    rcases forall2_exists_left hf2 p hp with ⟨sp, hsp, hget, hval⟩
    have hid : getId p.1 = sp.1 := hconsist sp.1 p.1 hget
    rw [hid, ← hrm0 sp.1]
    exact hget
  · intro p hp
    rcases forall2_exists_left hf2 p hp with ⟨sp, hsp, hget, hval⟩
    have hid : getId p.1 = sp.1 := hconsist sp.1 p.1 hget
    have hsmem : sp ∈ st.scores := (sortScores_perm st.scores).subset hsp
    rw [hval, hid]
    exact hscore0 sp hsmem
  · have hsorted := sortScores_sorted st.scores
    rw [← hproj, List.pairwise_map] at hsorted
    exact hsorted.imp (fun h => h)
  · intro p q hsub htie
    have hsubm : [(getId p.1, p.2), (getId q.1, q.2)].Sublist
        (RRFFusion.sortScores st.scores) := by
      rw [← hproj]
      have := hsub.map (fun q => (getId q.1, q.2))
      simpa using this
    have hscoresub := sortScores_tie_order hPairsNodup hsubm htie
    have hfst := hscoresub.map Prod.fst
    simp only [List.map_cons, List.map_nil] at hfst
    rw [← hEnc]
    exact hfst

/-- C1 (counterexample): with `k = -1` and a single one-element list, the
first iteration computes `1.0 / (k + 1) = 1.0 / 0`, a `ZeroDivisionError`
in the source; the embedded `fuse` therefore produces no result list at
all, refuting the claim's "every integer k". -/
theorem rrf_fuse_zero_denominator_counterexample :
    RRFFusion.fuse (-1) (fun n : ℕ => n) [[0]] = none := rfl

/-- Witness for C1 at `k = 60` and two overlapping two-element lists. -/
theorem rrf_fuse_correct_witness :
    (∀ l ∈ ([[1, 2], [2, 3]] : List (List ℕ)), ∀ r : ℕ, 1 ≤ r →
      r ≤ l.length → (60 : ℤ) + ((r : ℕ) : ℤ) ≠ 0) ∧
      (∀ l ∈ ([[1, 2], [2, 3]] : List (List ℕ)),
        (l.map fun n : ℕ => n).Nodup) ∧
      (∃ out, RRFFusion.fuse 60 (fun n : ℕ => n) [[1, 2], [2, 3]] = some out ∧
        (out.map fun p => p.1).Perm
          (firstEncounterOrder
            (([[1, 2], [2, 3]] : List (List ℕ)).flatten.map fun n : ℕ => n)) ∧
        (∀ p ∈ out, firstResult (fun n : ℕ => n) p.1
            ([[1, 2], [2, 3]] : List (List ℕ)).flatten = some p.1) ∧
        (∀ p ∈ out, p.2 = specScore 60 (fun n : ℕ => n) [[1, 2], [2, 3]] p.1) ∧
        out.Pairwise (fun p q => q.2 ≤ p.2) ∧
        (∀ p q : ℕ × ℚ, [p, q].Sublist out → p.2 = q.2 →
          [p.1, q.1].Sublist
            (firstEncounterOrder
              (([[1, 2], [2, 3]] : List (List ℕ)).flatten.map
                fun n : ℕ => n)))) := by
  have hk : ∀ l ∈ ([[1, 2], [2, 3]] : List (List ℕ)), ∀ r : ℕ, 1 ≤ r →
      r ≤ l.length → (60 : ℤ) + ((r : ℕ) : ℤ) ≠ 0 := by
    intro l _ r h1 _
    omega
  have hnd : ∀ l ∈ ([[1, 2], [2, 3]] : List (List ℕ)),
      (l.map fun n : ℕ => n).Nodup := by decide
  exact ⟨hk, hnd, rrf_fuse_correct 60 (fun n : ℕ => n) [[1, 2], [2, 3]] hk hnd⟩
